import Mathlib

/-!
Verification of the `lru-cache` crate (`src/lib.rs`, `src/linked_list.rs`).

The crate implements a write-back LRU cache.  The main module `lib.rs` keeps
the resident items in a `Vec` arranged as a binary min-heap on the
`accessed_time` stamp (the engine clock `current_time` is bumped on every
touching operation and stamped onto the touched entry), together with a
bidirectional map from index to heap position.  Eviction removes the heap
root, which carries the smallest stamp, i.e. the least recently used entry.

This file gives a shallow embedding of that code: every Rust function is
translated into a Lean function over an explicit state record.  Rust panics
(`unreachable!()` in the bimap `swap_by_right`, `unwrap`, `Vec::swap_remove`
out of bounds, `usize` underflow) are modelled by a `panicked` flag, and the
potential infinite eviction loop by a `diverged` flag; once either flag is
set, the run is dead and all further operations leave the state unchanged.
Calls into the user-supplied backend are recorded in an event log; the
backend itself is modelled by the pure functions `load` and `weight`
(`get_weight` is required by the spec to be a pure function of the pair).
-/

namespace LruCache

/-- Mirrors `CacheItem` in `src/lib.rs`: one resident slot of the cache. -/
structure CacheItem (I V : Type) where
  accessed_time : Nat
  index : I
  item : V
  updated : Bool
deriving DecidableEq, Repr

/-- One observable call to the `CacheBackend` trait object, in call order. -/
inductive Event (I V : Type) where
  | load (index : I)
  | writeBack (index : I) (item : V) (updated : Bool)
  | getWeight (index : I)
deriving DecidableEq, Repr

/-- The pure behaviour of a `CacheBackend`: `load` models
`load_from_backend` (a failure collapsed into absence is `none`), `weight`
models `get_weight`, which the spec requires to be a deterministic pure
function of `(index, item)`. -/
structure Backend (I V : Type) where
  load : I → Option V
  weight : I → V → Nat

/-- The bimap `map : Map` of the cache, modelled as an association list of
(index, heap position) pairs.  The `bimap` crate keeps both sides unique;
starting from the empty map, the operations below preserve that. -/
abbrev BiMap (I : Type) := List (I × Nat)

/-- Model of `CacheBiMapBackend::get_by_left`. -/
def getByLeft {I : Type} [DecidableEq I] (m : BiMap I) (k : I) : Option Nat :=
  (m.find? (fun p => p.1 == k)).map (·.2)

/-- Model of `CacheBiMapBackend::get_by_right`. -/
def getByRight {I : Type} (m : BiMap I) (r : Nat) : Option I :=
  (m.find? (fun p => p.2 == r)).map (·.1)

/-- Model of `CacheBiMapBackend::remove_by_right`, returning the removed pair. -/
def removeByRight {I : Type} (m : BiMap I) (r : Nat) : Option (I × Nat) × BiMap I :=
  match m.find? (fun p => p.2 == r) with
  | some p => (some p, m.eraseP (fun q => q.2 == r))
  | none => (none, m)

/-- Model of `BiHashMap::insert` (overwriting): any pair sharing the left key or the
right value is removed, then the new pair is added. -/
def mapInsert {I : Type} [DecidableEq I] (m : BiMap I) (k : I) (r : Nat) : BiMap I :=
  (m.filter (fun p => !(p.1 == k) && !(p.2 == r))) ++ [(k, r)]

/-- Model of `CacheBiMapBackend::swap_by_right`.  Returns `none` when one of the two
positions is not mapped: the source hits `unreachable!()` there (a panic). -/
def swapByRight {I : Type} [DecidableEq I] (m : BiMap I) (a b : Nat) :
    Option (BiMap I) :=
  let ra := removeByRight m a
  let rb := removeByRight ra.2 b
  match ra.1, rb.1 with
  | some pa, some pb => some (mapInsert (mapInsert rb.2 pa.1 pb.2) pb.1 pa.2)
  | _, _ => none

/-- The state of `LRU<Back, Map>` plus the backend call log and the two
death flags for panics and for the infinite eviction loop. -/
structure LRU (I V : Type) where
  cache : List (CacheItem I V)
  map : BiMap I
  current_time : Nat
  weight_sum : Nat
  capacity : Nat
  log : List (Event I V)
  panicked : Bool
  diverged : Bool
deriving Repr

/-- Model of `LRU::with_capacity`: note that the capacity argument is not validated. -/
def withCapacity {I V : Type} (capacity : Nat) : LRU I V :=
  { cache := [], map := [], current_time := 0, weight_sum := 0,
    capacity := capacity, log := [], panicked := false, diverged := false }

/-- Model of `LRU::new` delegates to `with_capacity(backend, 10)`. -/
def mkNew {I V : Type} : LRU I V := withCapacity 10

/-- The `accessed_time` stored at heap position `j` (0 outside the range;
the code only consults positions it has bounds-checked). -/
def timeAt {I V : Type} (cs : List (CacheItem I V)) (j : Nat) : Nat :=
  ((cs[j]?).map CacheItem.accessed_time).getD 0

/-- Model of `Vec::swap`: exchange the entries at positions `a` and `b`. -/
def listSwap {α : Type} (l : List α) (a b : Nat) : List α :=
  match l[a]?, l[b]? with
  | some x, some y => (l.set a y).set b x
  | _, _ => l

/-- Model of `Vec::swap_remove(i)`: remove position `i`, moving the last element into
its place.  `none` models the out-of-bounds panic. -/
def swapRemove {α : Type} (l : List α) (i : Nat) : Option (α × List α) :=
  match l[i]?, l[l.length - 1]? with
  | some x, some y => some (x, (l.set i y).dropLast)
  | _, _ => none

@[simp]
theorem listSwap_length {α : Type} (l : List α) (a b : Nat) :
    (listSwap l a b).length = l.length := by
  unfold listSwap
  cases ha : l[a]? <;> cases hb : l[b]? <;> simp

/-- Model of `LRU::recursive_swap`: sift the entry at `current` down the min-heap,
mirroring the swaps in the position map.  The third component is the panic
flag (set when `swap_by_right` hits `unreachable!()`). -/
def recursiveSwap {I : Type} [DecidableEq I] {V : Type}
    (cache : List (CacheItem I V)) (m : BiMap I) (current : Nat) :
    List (CacheItem I V) × BiMap I × Bool :=
  if _h : current * 2 + 1 < cache.length then
    if timeAt cache current < timeAt cache (current * 2 + 1) ∧
        (cache.length ≤ current * 2 + 2 ∨
          timeAt cache current < timeAt cache (current * 2 + 2)) then
      (cache, m, false)
    else if cache.length ≤ current * 2 + 2 ∨
        timeAt cache (current * 2 + 1) < timeAt cache (current * 2 + 2) then
      match swapByRight m current (current * 2 + 1) with
      | some m₁ =>
          recursiveSwap (listSwap cache current (current * 2 + 1)) m₁
            (current * 2 + 1)
      | none => (cache, m, true)
    else
      match swapByRight m current (current * 2 + 2) with
      | some m₁ =>
          recursiveSwap (listSwap cache current (current * 2 + 2)) m₁
            (current * 2 + 2)
      | none => (cache, m, true)
  else (cache, m, false)
termination_by cache.length - current
decreasing_by
  · simp [listSwap_length]; omega
  · simp [listSwap_length]; omega

/-- Model of `LRU::unload_newest`: evict the heap root (the least recently used
entry), returning its weight.  Backend calls: `get_weight` on the evicted
pair, then `write_back`. -/
def unloadNewest {I : Type} [DecidableEq I] {V : Type} (B : Backend I V)
    (s : LRU I V) : Nat × LRU I V :=
  if s.cache.isEmpty then (0, s)
  else
    match swapByRight s.map 0 (s.cache.length - 1) with
    | none => (0, { s with panicked := true })
    | some m₁ =>
      let m₂ := (removeByRight m₁ (s.cache.length - 1)).2
      match swapRemove s.cache 0 with
      | none => (0, { s with map := m₂, panicked := true })
      | some (item, cache₁) =>
        let w := B.weight item.index item.item
        let r := recursiveSwap cache₁ m₂ 0
        if r.2.2 then
          (0, { s with cache := r.1, map := r.2.1,
                       log := s.log ++ [Event.getWeight item.index],
                       panicked := true })
        else
          (w, { s with cache := r.1, map := r.2.1,
                       log := s.log ++ [Event.getWeight item.index,
                         Event.writeBack item.index item.item item.updated] })

@[simp]
theorem recursiveSwap_length {I : Type} [DecidableEq I] {V : Type}
    (cache : List (CacheItem I V)) (m : BiMap I) (current : Nat) :
    (recursiveSwap cache m current).1.length = cache.length := by
  induction cache, m, current using recursiveSwap.induct with
  | case1 cache m current h1 h2 =>
    rw [recursiveSwap]; simp only [dif_pos h1, if_pos h2]
  | case2 cache m current h1 h2 h3 m₁ hsw ih =>
    rw [recursiveSwap]
    simp only [dif_pos h1, if_neg h2, if_pos h3, hsw, ih, listSwap_length]
  | case3 cache m current h1 h2 h3 hsw =>
    rw [recursiveSwap]; simp only [dif_pos h1, if_neg h2, if_pos h3, hsw]
  | case4 cache m current h1 h2 h3 m₁ hsw ih =>
    rw [recursiveSwap]
    simp only [dif_pos h1, if_neg h2, if_neg h3, hsw, ih, listSwap_length]
  | case5 cache m current h1 h2 h3 hsw =>
    rw [recursiveSwap]; simp only [dif_pos h1, if_neg h2, if_neg h3, hsw]
  | case6 cache m current h1 =>
    rw [recursiveSwap]; simp only [dif_neg h1]

theorem swapRemove_length {α : Type} (l : List α) (i : Nat) (x : α)
    (l' : List α) (h : swapRemove l i = some (x, l')) :
    l'.length + 1 = l.length := by
  unfold swapRemove at h
  cases hx : l[i]? with
  | none => rw [hx] at h; simp at h
  | some a =>
    cases hy : l[l.length - 1]? with
    | none => rw [hx, hy] at h; simp at h
    | some b =>
      rw [hx, hy] at h
      simp only [Option.some.injEq, Prod.mk.injEq] at h
      have hne : l ≠ [] := by
        intro hnil; rw [hnil] at hx; simp at hx
      have hpos : 0 < l.length := List.length_pos.mpr hne
      have : l' = (l.set i b).dropLast := h.2.symm
      rw [this]
      simp only [List.length_dropLast, List.length_set]
      omega

theorem unloadNewest_cache_length {I : Type} [DecidableEq I] {V : Type}
    (B : Backend I V) (s : LRU I V) (h : s.cache.isEmpty = false)
    (h₂ : (unloadNewest B s).2.panicked = false) :
    (unloadNewest B s).2.cache.length < s.cache.length := by
  unfold unloadNewest at h₂ ⊢
  simp only [h, Bool.false_eq_true, if_false] at h₂ ⊢
  cases hsw : swapByRight s.map 0 (s.cache.length - 1) with
  | none => rw [hsw] at h₂; simp at h₂
  | some m₁ =>
    rw [hsw] at h₂
    dsimp only at h₂ ⊢
    cases hsr : swapRemove s.cache 0 with
    | none => rw [hsr] at h₂; simp at h₂
    | some p =>
      rw [hsr] at h₂
      dsimp only at h₂ ⊢
      obtain ⟨item, cache₁⟩ := p
      have hlen := swapRemove_length s.cache 0 item cache₁ hsr
      have hrl := recursiveSwap_length cache₁
        (removeByRight m₁ (s.cache.length - 1)).2 0
      rcases hr : recursiveSwap cache₁ (removeByRight m₁ (s.cache.length - 1)).2 0
        with ⟨c₂, m₂, pk⟩
      rw [hr] at hrl
      cases pk with
      | true => rw [hr] at h₂; simp at h₂
      | false =>
        simp only at hrl
        simp
        omega

/-- The eviction loop at the head of `insert_cache`:
`while weight_sum > capacity { weight_sum -= unload_newest() }`.
When the cache is empty and `weight_sum > capacity` still holds, the Rust
loop spins forever (`unload_newest` returns 0): modelled by `diverged`.
A `usize` underflow in the subtraction is a panic. -/
def evictLoop {I : Type} [DecidableEq I] {V : Type} (B : Backend I V)
    (s : LRU I V) : LRU I V :=
  if s.weight_sum ≤ s.capacity then s
  else if s.cache.isEmpty then { s with diverged := true }
  else
    let r := unloadNewest B s
    if r.2.panicked then r.2
    else if r.2.weight_sum < r.1 then { r.2 with panicked := true }
    else evictLoop B { r.2 with weight_sum := r.2.weight_sum - r.1 }
termination_by s.cache.length
decreasing_by
  rename_i _hsum hemp hpk _hub
  exact unloadNewest_cache_length B s (by simpa using hemp) (by simpa using hpk)

/-- Model of `LRU::insert_cache`: bump the clock, build the new entry, run the
eviction loop, then admit the entry (calling `get_weight` on it). -/
def insertCache {I : Type} [DecidableEq I] {V : Type} (B : Backend I V)
    (s : LRU I V) (index : I) (item : V) (upd : Bool) : LRU I V :=
  let t := s.current_time + 1
  let s₁ := evictLoop B { s with current_time := t }
  if s₁.panicked ∨ s₁.diverged then s₁
  else
    { s₁ with
      log := s₁.log ++ [Event.getWeight index],
      weight_sum := s₁.weight_sum + B.weight index item,
      map := mapInsert s₁.map index s₁.cache.length,
      cache := s₁.cache ++ [⟨t, index, item, upd⟩] }

/-- Model of `LRU::get_inner`.  On a hit: remove the entry with `swap_remove`,
restamp it, re-point the displaced entry in the map, sift it down, and
re-append the touched entry at the heap end with the freshest stamp.  On a
miss: call `load_from_backend` and either admit via `insert_cache` or
return nothing.  The `unwrap` on `get_by_right` and an out-of-range
`swap_remove` are panics. -/
def getInner {I : Type} [DecidableEq I] {V : Type} (B : Backend I V)
    (s : LRU I V) (index : I) (upd : Bool) : Option V × LRU I V :=
  match getByLeft s.map index with
  | some i =>
    match swapRemove s.cache i with
    | none => (none, { s with panicked := true })
    | some (value₀, cache₁) =>
      let t := s.current_time + 1
      let value : CacheItem I V :=
        { value₀ with accessed_time := t, updated := value₀.updated || upd }
      match getByRight s.map cache₁.length with
      | none => (none, { s with cache := cache₁, current_time := t,
                                panicked := true })
      | some x =>
        let m₁ := mapInsert s.map x i
        let r := recursiveSwap cache₁ m₁ i
        if r.2.2 then
          (none, { s with cache := r.1, map := r.2.1, current_time := t,
                          panicked := true })
        else
          (some value.item,
           { s with cache := r.1 ++ [value],
                    map := mapInsert r.2.1 index r.1.length,
                    current_time := t })
  | none =>
    match B.load index with
    | some item =>
      let s₁ := insertCache B { s with log := s.log ++ [Event.load index] }
        index item upd
      if s₁.panicked ∨ s₁.diverged then (none, s₁)
      else ((s₁.cache.getLast?).map CacheItem.item, s₁)
    | none =>
      (none, { s with log := s.log ++ [Event.load index] })

/-- Model of `LRU::get`.  A dead (panicked or diverged) run stays dead. -/
def get {I : Type} [DecidableEq I] {V : Type} (B : Backend I V)
    (s : LRU I V) (index : I) : Option V × LRU I V :=
  if s.panicked ∨ s.diverged then (none, s) else getInner B s index false

/-- Model of `LRU::get_mut` (the returned reference is modelled by the value). -/
def getMut {I : Type} [DecidableEq I] {V : Type} (B : Backend I V)
    (s : LRU I V) (index : I) : Option V × LRU I V :=
  if s.panicked ∨ s.diverged then (none, s) else getInner B s index true

/-- Model of `LRU::insert`: `insert_cache(index, item, true)`. -/
def insert {I : Type} [DecidableEq I] {V : Type} (B : Backend I V)
    (s : LRU I V) (index : I) (item : V) : LRU I V :=
  if s.panicked ∨ s.diverged then s else insertCache B s index item true

/-- One public operation of the cache API. -/
inductive Op (I V : Type) where
  | ins (index : I) (item : V)
  | get (index : I)
  | getMut (index : I)

/-- Apply one public operation (dropping the returned value). -/
def applyOp {I : Type} [DecidableEq I] {V : Type} (B : Backend I V)
    (s : LRU I V) : Op I V → LRU I V
  | Op.ins i v => insert B s i v
  | Op.get i => (get B s i).2
  | Op.getMut i => (getMut B s i).2

/-- Run a sequence of public operations. -/
def runOps {I : Type} [DecidableEq I] {V : Type} (B : Backend I V)
    (s : LRU I V) (ops : List (Op I V)) : LRU I V :=
  ops.foldl (applyOp B) s

/-- The states reachable from a fresh cache by public operations. -/
def Reachable {I : Type} [DecidableEq I] {V : Type} (B : Backend I V)
    (s : LRU I V) : Prop :=
  ∃ (capacity : Nat) (ops : List (Op I V)), s = runOps B (withCapacity capacity) ops

/-- The unit-weight backend over `Nat` that echoes the index as the loaded
value, as in the spec's concrete scenarios and the crate's own test. -/
def echoBackend : Backend Nat Nat :=
  { load := fun i => some i, weight := fun _ _ => 1 }

/-- An echoing backend whose items all weigh 10: used to exercise the
oversize-item path (`weight > capacity`). -/
def bigBackend : Backend Nat Nat :=
  { load := fun i => some i, weight := fun _ _ => 10 }

/-- A backend that holds no data at all: every load reports absence. -/
def absentBackend : Backend Nat Nat :=
  { load := fun _ => none, weight := fun _ _ => 1 }

/-- The `write_back` calls recorded in a log, in delivery order. -/
def writeBacks {I V : Type} (log : List (Event I V)) : List (I × V × Bool) :=
  log.filterMap fun e =>
    match e with
    | Event.writeBack i v u => some (i, v, u)
    | _ => none

/-- The strict min-heap property of the cache vector on `accessed_time`:
every parent's stamp is smaller than its children's (children of `j` sit at
`2j+1` and `2j+2`). -/
def HeapInv {I V : Type} (cs : List (CacheItem I V)) : Prop :=
  ∀ j k, (k = j * 2 + 1 ∨ k = j * 2 + 2) → k < cs.length →
    timeAt cs j < timeAt cs k

/-- Every stamp in the cache is bounded by the engine clock. -/
def TimesBound {I V : Type} (cs : List (CacheItem I V)) (T : Nat) : Prop :=
  ∀ e ∈ cs, e.accessed_time ≤ T

/-- The last vector entry carries the strictly largest stamp (it is the
entry pushed by the most recent touching operation). -/
def LastMax {I V : Type} (cs : List (CacheItem I V)) : Prop :=
  ∀ j, j + 1 < cs.length → timeAt cs j < timeAt cs (cs.length - 1)

/-- All stamps in the cache are pairwise distinct. -/
def DistinctTimes {I V : Type} (cs : List (CacheItem I V)) : Prop :=
  (cs.map CacheItem.accessed_time).Nodup

/-- The heap-shape invariant of a live cache state: it holds after every
public operation that returns normally. -/
def Inv {I V : Type} (s : LRU I V) : Prop :=
  HeapInv s.cache ∧ LastMax s.cache ∧ TimesBound s.cache s.current_time ∧
    DistinctTimes s.cache

/-- A state is good when it is dead (panicked or diverged) or satisfies the
heap-shape invariant. -/
def Good {I V : Type} (s : LRU I V) : Prop :=
  s.panicked = true ∨ s.diverged = true ∨ Inv s

/-- Sift-down precondition at position `i`: the heap property holds on
every edge not leaving `i`, and the parent of `i` (when `i` is not the
root) is smaller than the children of `i`. -/
def SiftPre {I V : Type} (cs : List (CacheItem I V)) (i : Nat) : Prop :=
  (∀ j k, (k = j * 2 + 1 ∨ k = j * 2 + 2) → k < cs.length → j ≠ i →
    timeAt cs j < timeAt cs k) ∧
  (∀ k, (k = i * 2 + 1 ∨ k = i * 2 + 2) → k < cs.length → 0 < i →
    timeAt cs ((i - 1) / 2) < timeAt cs k)

end LruCache

namespace LinkedListModel

/-- The recency list of `src/linked_list.rs`.  Nodes are identified by
natural numbers; the `next`/`prev` pointer cells (`RwLock<Option<Arc<_>>>` /
`RwLock<Option<Weak<_>>>`) become total maps from node id to optional node
id.  A `Weak` upgrade is modelled as the stored id itself (upgrades succeed
on every live list; the claims only concern well-formed lists). -/
structure LinkedList where
  first : Option Nat
  last : Option Nat
  nxt : Nat → Option Nat
  prv : Nat → Option Nat

/-- Model of `LinkedList::new`. -/
def llNew : LinkedList :=
  { first := none, last := none, nxt := fun _ => none, prv := fun _ => none }

/-- Model of `LinkedList::set_node_last`: append an unlinked node at the tail. -/
def setNodeLast (s : LinkedList) (node : Nat) : LinkedList :=
  match s.last with
  | some l =>
    { s with prv := Function.update s.prv node (some l),
             nxt := Function.update s.nxt l (some node),
             last := some node }
  | none =>
    match s.first with
    | none => { s with first := some node, last := some node }
    | some _ => { s with last := some node }

/-- Model of `LinkedList::push`: create a fresh unlinked node and append it. -/
def push (s : LinkedList) (node : Nat) : LinkedList :=
  setNodeLast
    { s with nxt := Function.update s.nxt node none,
             prv := Function.update s.prv node none } node

/-- Model of `LinkedList::move_to_last`, with the reads and writes in source order:
read `prev` and `next` of the node, unlink it (fixing up the neighbour
pointers or the list head/tail), clear its own links, then re-append it at
the tail with `set_node_last`. -/
def moveToLast (s : LinkedList) (node : Nat) : LinkedList :=
  let p := s.prv node
  let n := s.nxt node
  let s₁ :=
    match s.nxt node with
    | some nx => { s with prv := Function.update s.prv nx p }
    | none => { s with last := p }
  let s₂ :=
    match s₁.prv node with
    | some pv => { s₁ with nxt := Function.update s₁.nxt pv n }
    | none => { s₁ with first := n }
  let s₃ :=
    { s₂ with nxt := Function.update s₂.nxt node none,
              prv := Function.update s₂.prv node none }
  setNodeLast s₃ node

/-- Doubly-linked-list consistency facts (spec §3 invariant 3: "acyclic,
doubly linked, with consistent head/tail") used by the claims: the tail has
no successor, `prev` pointers are inverse to `next` pointers, and a tail
node without a predecessor is also the head. -/
structure WFList (s : LinkedList) : Prop where
  last_nxt : ∀ x, s.last = some x → s.nxt x = none
  prv_nxt : ∀ x y, s.prv x = some y → s.nxt y = some x
  lone_first : ∀ x, s.last = some x → s.prv x = none → s.first = some x

end LinkedListModel

namespace LruCache

theorem unloadNewest_capacity {I : Type} [DecidableEq I] {V : Type}
    (B : Backend I V) (s : LRU I V) :
    (unloadNewest B s).2.capacity = s.capacity := by
  unfold unloadNewest
  repeat' split
  all_goals try rfl
  all_goals (dsimp only; split <;> rfl)

theorem unloadNewest_diverged {I : Type} [DecidableEq I] {V : Type}
    (B : Backend I V) (s : LRU I V) :
    (unloadNewest B s).2.diverged = s.diverged := by
  unfold unloadNewest
  repeat' split
  all_goals try rfl
  all_goals (dsimp only; split <;> rfl)

theorem evictLoop_capacity {I : Type} [DecidableEq I] {V : Type}
    (B : Backend I V) (s : LRU I V) :
    (evictLoop B s).capacity = s.capacity := by
  induction s using evictLoop.induct B with
  | case1 x h => rw [evictLoop, if_pos h]
  | case2 x h1 h2 => rw [evictLoop, if_neg h1, if_pos h2]
  | case3 x h1 h2 r h3 =>
    rw [evictLoop, if_neg h1, if_neg h2, if_pos h3]
    exact unloadNewest_capacity B x
  | case4 x h1 h2 r h3 h4 =>
    rw [evictLoop, if_neg h1, if_neg h2, if_neg h3, if_pos h4]
    exact unloadNewest_capacity B x
  | case5 x h1 h2 r h3 h4 ih =>
    rw [evictLoop, if_neg h1, if_neg h2, if_neg h3, if_neg h4, ih]
    exact unloadNewest_capacity B x

theorem unloadNewest_current_time {I : Type} [DecidableEq I] {V : Type}
    (B : Backend I V) (s : LRU I V) :
    (unloadNewest B s).2.current_time = s.current_time := by
  unfold unloadNewest
  repeat' split
  all_goals try rfl
  all_goals (dsimp only; split <;> rfl)

theorem evictLoop_current_time {I : Type} [DecidableEq I] {V : Type}
    (B : Backend I V) (s : LRU I V) :
    (evictLoop B s).current_time = s.current_time := by
  induction s using evictLoop.induct B with
  | case1 x h => rw [evictLoop, if_pos h]
  | case2 x h1 h2 => rw [evictLoop, if_neg h1, if_pos h2]
  | case3 x h1 h2 r h3 =>
    rw [evictLoop, if_neg h1, if_neg h2, if_pos h3]
    exact unloadNewest_current_time B x
  | case4 x h1 h2 r h3 h4 =>
    rw [evictLoop, if_neg h1, if_neg h2, if_neg h3, if_pos h4]
    exact unloadNewest_current_time B x
  | case5 x h1 h2 r h3 h4 ih =>
    rw [evictLoop, if_neg h1, if_neg h2, if_neg h3, if_neg h4, ih]
    exact unloadNewest_current_time B x

theorem evictLoop_weight_le {I : Type} [DecidableEq I] {V : Type}
    (B : Backend I V) (s : LRU I V)
    (hp : (evictLoop B s).panicked = false)
    (hd : (evictLoop B s).diverged = false) :
    (evictLoop B s).weight_sum ≤ (evictLoop B s).capacity := by
  induction s using evictLoop.induct B with
  | case1 x h => rw [evictLoop, if_pos h]; exact h
  | case2 x h1 h2 =>
    rw [evictLoop, if_neg h1, if_pos h2] at hd
    simp at hd
  | case3 x h1 h2 r h3 =>
    rw [evictLoop, if_neg h1, if_neg h2, if_pos h3] at hp
    rw [hp] at h3
    cases h3
  | case4 x h1 h2 r h3 h4 =>
    rw [evictLoop, if_neg h1, if_neg h2, if_neg h3, if_pos h4] at hp
    simp at hp
  | case5 x h1 h2 r h3 h4 ih =>
    rw [evictLoop, if_neg h1, if_neg h2, if_neg h3, if_neg h4] at hp hd ⊢
    exact ih hp hd

theorem insertCache_weight_le {I : Type} [DecidableEq I] {V : Type}
    (B : Backend I V) (s : LRU I V) (k : I) (v : V) (u : Bool)
    (hp : (insertCache B s k v u).panicked = false)
    (hd : (insertCache B s k v u).diverged = false) :
    (insertCache B s k v u).weight_sum ≤
      (insertCache B s k v u).capacity + B.weight k v := by
  unfold insertCache at hp hd ⊢
  by_cases hflag :
      ((evictLoop B { s with current_time := s.current_time + 1 }).panicked = true ∨
        (evictLoop B { s with current_time := s.current_time + 1 }).diverged = true)
  · rw [if_pos hflag] at hp hd
    rcases hflag with h | h
    · rw [hp] at h; cases h
    · rw [hd] at h; cases h
  · rw [if_neg hflag] at hp hd ⊢
    have hpk : (evictLoop B { s with current_time := s.current_time + 1 }).panicked
        = false := by
      cases hh : (evictLoop B { s with current_time := s.current_time + 1 }).panicked
      · rfl
      · exact absurd (Or.inl hh) hflag
    have hdv : (evictLoop B { s with current_time := s.current_time + 1 }).diverged
        = false := by
      cases hh : (evictLoop B { s with current_time := s.current_time + 1 }).diverged
      · rfl
      · exact absurd (Or.inr hh) hflag
    have hle := evictLoop_weight_le B
      { s with current_time := s.current_time + 1 } hpk hdv
    exact Nat.add_le_add_right hle (B.weight k v)

/-- C1 (counterexample): with capacity 3 and unit weights, after
`insert(0,0); insert(1,1); insert(2,2); insert(3,3)` the run is alive, the
single inserted weight 1 does not exceed the capacity 3, yet
`weight_sum = 4 > 3` and no `write_back` at all has been delivered: the
eviction claimed for `insert(3,3)` did not happen. -/
theorem c1_counterexample :
    (runOps echoBackend (withCapacity 3)
      [Op.ins 0 0, Op.ins 1 1, Op.ins 2 2, Op.ins 3 3]).panicked = false ∧
    (runOps echoBackend (withCapacity 3)
      [Op.ins 0 0, Op.ins 1 1, Op.ins 2 2, Op.ins 3 3]).diverged = false ∧
    (runOps echoBackend (withCapacity 3)
      [Op.ins 0 0, Op.ins 1 1, Op.ins 2 2, Op.ins 3 3]).weight_sum = 4 ∧
    (runOps echoBackend (withCapacity 3)
      [Op.ins 0 0, Op.ins 1 1, Op.ins 2 2, Op.ins 3 3]).capacity = 3 ∧
    writeBacks (runOps echoBackend (withCapacity 3)
      [Op.ins 0 0, Op.ins 1 1, Op.ins 2 2, Op.ins 3 3]).log = [] := by
  refine ⟨?_, ?_, ?_, ?_, ?_⟩ <;>
  simp [runOps, applyOp, insert, insertCache, evictLoop, unloadNewest, getInner,
    get, getMut, recursiveSwap, swapByRight, mapInsert, removeByRight, getByLeft,
    getByRight, swapRemove, listSwap, timeAt, withCapacity, echoBackend,
    writeBacks, List.find?, List.eraseP, List.filter]

/-- C1 (amended): after an `insert` that returns normally, `weight_sum` is
at most `capacity` plus the weight of the just-inserted item — the engine
evicts down to `capacity` only at the start of the next admission, not
after the current one.  Concretely, continuing the counterexample run, the
next call `insert(4,4)` delivers the deferred eviction
`write_back(0, 0, dirty=true)`. -/
theorem c1_amended {I V : Type} [DecidableEq I] (B : Backend I V)
    (s : LRU I V) (k : I) (v : V)
    (hp : (insert B s k v).panicked = false)
    (hd : (insert B s k v).diverged = false) :
    (insert B s k v).weight_sum ≤ (insert B s k v).capacity + B.weight k v ∧
    writeBacks (runOps echoBackend (withCapacity 3)
      [Op.ins 0 0, Op.ins 1 1, Op.ins 2 2, Op.ins 3 3, Op.ins 4 4]).log =
      [(0, 0, true)] := by
  constructor
  · unfold insert at hp hd ⊢
    by_cases hdead : (s.panicked = true ∨ s.diverged = true)
    · rw [if_pos hdead] at hp hd
      rcases hdead with h | h
      · rw [hp] at h; cases h
      · rw [hd] at h; cases h
    · rw [if_neg hdead] at hp hd ⊢
      exact insertCache_weight_le B s k v true hp hd
  · simp [runOps, applyOp, insert, insertCache, evictLoop, unloadNewest, getInner,
      get, getMut, recursiveSwap, swapByRight, mapInsert, removeByRight, getByLeft,
      getByRight, swapRemove, listSwap, timeAt, withCapacity, echoBackend,
      writeBacks, List.find?, List.eraseP, List.filter]

/-- Witness for C1 (amended) at capacity 3, unit weights, fresh cache. -/
theorem c1_amended_witness :
    (insert echoBackend (withCapacity 3) 0 0).panicked = false ∧
    (insert echoBackend (withCapacity 3) 0 0).diverged = false ∧
    (insert echoBackend (withCapacity 3) 0 0).weight_sum ≤
      (insert echoBackend (withCapacity 3) 0 0).capacity + echoBackend.weight 0 0 := by
  have h1 : (insert echoBackend (withCapacity 3) 0 0).panicked = false := by
    simp [insert, insertCache, evictLoop, withCapacity, echoBackend, mapInsert]
  have h2 : (insert echoBackend (withCapacity 3) 0 0).diverged = false := by
    simp [insert, insertCache, evictLoop, withCapacity, echoBackend, mapInsert]
  exact ⟨h1, h2, (c1_amended echoBackend (withCapacity 3) 0 0 h1 h2).1⟩

/-- C2 (code bug): key 0 is resident (mapped) after `insert(0,0)` at
capacity 1, yet the re-insert `insert(0,99)` emits no `write_back` at all
and raises no flag (the claim requires the prior value 0 to be delivered
exactly once), while `get(0)` does return 99 with no backend call; the
re-insert left a stale duplicate slot, so the next `insert(1,1)` reaches
`unreachable!()` in `swap_by_right` — a panic instead of a normal eviction. -/
theorem c2_reinsert_bug :
    getByLeft (runOps echoBackend (withCapacity 1)
      [Op.ins 0 0]).map 0 = some 0 ∧
    (runOps echoBackend (withCapacity 1)
      [Op.ins 0 0, Op.ins 0 99]).panicked = false ∧
    (runOps echoBackend (withCapacity 1)
      [Op.ins 0 0, Op.ins 0 99]).diverged = false ∧
    writeBacks (runOps echoBackend (withCapacity 1)
      [Op.ins 0 0, Op.ins 0 99]).log = [] ∧
    (get echoBackend (runOps echoBackend (withCapacity 1)
      [Op.ins 0 0, Op.ins 0 99]) 0).1 = some 99 ∧
    (get echoBackend (runOps echoBackend (withCapacity 1)
      [Op.ins 0 0, Op.ins 0 99]) 0).2.log =
      (runOps echoBackend (withCapacity 1) [Op.ins 0 0, Op.ins 0 99]).log ∧
    (runOps echoBackend (withCapacity 1)
      [Op.ins 0 0, Op.ins 0 99, Op.ins 1 1]).panicked = true := by
  refine ⟨?_, ?_, ?_, ?_, ?_, ?_, ?_⟩ <;>
  simp [runOps, applyOp, insert, insertCache, evictLoop, unloadNewest, getInner,
    get, getMut, recursiveSwap, swapByRight, mapInsert, removeByRight, getByLeft,
    getByRight, swapRemove, listSwap, timeAt, withCapacity, echoBackend,
    writeBacks, List.find?, List.eraseP, List.filter]

/-- C3 (code bug): the engine is not panic-free.  (a) After the re-insert
`insert(0,0); insert(0,99)` at capacity 1, the next `insert(1,1)` panics at
`unreachable!()` in `swap_by_right`.  (b) The oversize-item scenario also
aborts: with item weight 10 and capacity 3 the single oversize item is
admitted without divergence, but the next admission must evict from a
one-element cache and `swap_by_right(0, 0)` removes the only pair and then
fails to find it again — `unreachable!()` instead of the required
normal eviction. -/
theorem c3_not_panic_free :
    (runOps echoBackend (withCapacity 1)
      [Op.ins 0 0, Op.ins 0 99, Op.ins 1 1]).panicked = true ∧
    (runOps bigBackend (withCapacity 3) [Op.ins 0 0]).panicked = false ∧
    (runOps bigBackend (withCapacity 3) [Op.ins 0 0]).diverged = false ∧
    (runOps bigBackend (withCapacity 3) [Op.ins 0 0]).weight_sum = 10 ∧
    (runOps bigBackend (withCapacity 3) [Op.ins 0 0, Op.ins 1 1]).panicked = true := by
  refine ⟨?_, ?_, ?_, ?_, ?_⟩ <;>
  simp [runOps, applyOp, insert, insertCache, evictLoop, unloadNewest, getInner,
    get, getMut, recursiveSwap, swapByRight, mapInsert, removeByRight, getByLeft,
    getByRight, swapRemove, listSwap, timeAt, withCapacity, echoBackend, bigBackend,
    writeBacks, List.find?, List.eraseP, List.filter]

/-- C6 (code bug): key 1 is resident (mapped to heap slot 0) after
`insert(1,1); insert(0,0); insert(0,99)` at capacity 3, yet `get(1)` panics
inside `recursive_swap` (the stale slot left by the re-insert is not in the
map) instead of returning the stored item; no `load_from_backend` happens
(the log is unchanged), so the claim's no-load half holds but its
returns-the-item half does not. -/
theorem c6_resident_get_panics :
    getByLeft (runOps echoBackend (withCapacity 3)
      [Op.ins 1 1, Op.ins 0 0, Op.ins 0 99]).map 1 = some 0 ∧
    (get echoBackend (runOps echoBackend (withCapacity 3)
      [Op.ins 1 1, Op.ins 0 0, Op.ins 0 99]) 1).1 = none ∧
    (get echoBackend (runOps echoBackend (withCapacity 3)
      [Op.ins 1 1, Op.ins 0 0, Op.ins 0 99]) 1).2.panicked = true ∧
    (get echoBackend (runOps echoBackend (withCapacity 3)
      [Op.ins 1 1, Op.ins 0 0, Op.ins 0 99]) 1).2.log =
      (runOps echoBackend (withCapacity 3)
        [Op.ins 1 1, Op.ins 0 0, Op.ins 0 99]).log := by
  refine ⟨?_, ?_, ?_, ?_⟩ <;>
  simp [runOps, applyOp, insert, insertCache, evictLoop, unloadNewest, getInner,
    get, getMut, recursiveSwap, swapByRight, mapInsert, removeByRight, getByLeft,
    getByRight, swapRemove, listSwap, timeAt, withCapacity, echoBackend,
    writeBacks, List.find?, List.eraseP, List.filter]

/-- C7: a read of an index that is neither resident nor present in the
backend returns nothing and leaves every cache-state field (slot storage,
map, weight sum, access clock) unchanged, for both `get` and `get_mut`. -/
theorem c7_miss_absent_unchanged {I : Type} [DecidableEq I] {V : Type}
    (B : Backend I V) (s : LRU I V) (k : I)
    (hmiss : getByLeft s.map k = none) (habs : B.load k = none) :
    (get B s k).1 = none ∧ (getMut B s k).1 = none ∧
    (get B s k).2.cache = s.cache ∧ (get B s k).2.map = s.map ∧
    (get B s k).2.weight_sum = s.weight_sum ∧
    (get B s k).2.current_time = s.current_time ∧
    (getMut B s k).2.cache = s.cache ∧ (getMut B s k).2.map = s.map ∧
    (getMut B s k).2.weight_sum = s.weight_sum ∧
    (getMut B s k).2.current_time = s.current_time := by
  unfold get getMut
  by_cases hdead : (s.panicked = true ∨ s.diverged = true)
  · rw [if_pos hdead, if_pos hdead]
    exact ⟨rfl, rfl, rfl, rfl, rfl, rfl, rfl, rfl, rfl, rfl⟩
  · rw [if_neg hdead, if_neg hdead]
    unfold getInner
    rw [hmiss, habs]
    exact ⟨rfl, rfl, rfl, rfl, rfl, rfl, rfl, rfl, rfl, rfl⟩

/-- Witness for C7: the empty cache over the empty backend, key 0. -/
theorem c7_witness :
    getByLeft (withCapacity 2 : LRU Nat Nat).map 0 = none ∧
    absentBackend.load 0 = none ∧
    (get absentBackend (withCapacity 2) 0).1 = none ∧
    (get absentBackend (withCapacity 2) 0).2.cache = (withCapacity 2 : LRU Nat Nat).cache :=
  ⟨rfl, rfl,
    (c7_miss_absent_unchanged absentBackend (withCapacity 2) 0 rfl rfl).1,
    (c7_miss_absent_unchanged absentBackend (withCapacity 2) 0 rfl rfl).2.2.1⟩

/-- C9: `with_capacity` performs no validation: a cache with capacity 0 is
created as-is, and the first insert of an item of positive weight is still
admitted (invariant 6 of the spec is violated right away:
`weight_sum > capacity`). -/
theorem c9_with_capacity_zero {I : Type} [DecidableEq I] {V : Type}
    (B : Backend I V) (k : I) (v : V) (hw : 1 ≤ B.weight k v) :
    (withCapacity 0 : LRU I V).capacity = 0 ∧
    (insert B (withCapacity 0) k v).panicked = false ∧
    (insert B (withCapacity 0) k v).diverged = false ∧
    (insert B (withCapacity 0) k v).cache = [⟨1, k, v, true⟩] ∧
    getByLeft (insert B (withCapacity 0) k v).map k = some 0 ∧
    (insert B (withCapacity 0) k v).capacity <
      (insert B (withCapacity 0) k v).weight_sum := by
  refine ⟨rfl, ?_, ?_, ?_, ?_, ?_⟩ <;>
  · simp [insert, insertCache, evictLoop, withCapacity, getByLeft, mapInsert,
      List.find?, List.filter]
    try omega

/-- Witness for C9 with the unit-weight echo backend. -/
theorem c9_witness :
    1 ≤ echoBackend.weight 0 0 ∧
    (insert echoBackend (withCapacity 0) 0 0).capacity <
      (insert echoBackend (withCapacity 0) 0 0).weight_sum :=
  ⟨by decide,
    (c9_with_capacity_zero echoBackend 0 0 (by decide)).2.2.2.2.2⟩

theorem getInner_log_of_hit {I : Type} [DecidableEq I] {V : Type}
    (B : Backend I V) (s : LRU I V) (k : I) (u : Bool) (i : Nat)
    (hres : getByLeft s.map k = some i) :
    (getInner B s k u).2.log = s.log := by
  unfold getInner
  rw [hres]
  dsimp only
  cases hsr : swapRemove s.cache i with
  | none => rfl
  | some p =>
    obtain ⟨v₀, c₁⟩ := p
    dsimp only
    cases hgr : getByRight s.map c₁.length with
    | none => rfl
    | some x =>
      dsimp only
      split
      · rfl
      · rfl

/-- C10: a cache hit performs no backend call of any kind — for a resident
key, neither `get` nor `get_mut` appends any event (load, write_back or
get_weight) to the backend call log, and the pure backend object itself is
untouched by construction. -/
theorem c10_hit_no_backend_calls {I : Type} [DecidableEq I] {V : Type}
    (B : Backend I V) (s : LRU I V) (k : I) (i : Nat)
    (hres : getByLeft s.map k = some i) :
    (get B s k).2.log = s.log ∧ (getMut B s k).2.log = s.log := by
  unfold get getMut
  by_cases hdead : (s.panicked = true ∨ s.diverged = true)
  · rw [if_pos hdead, if_pos hdead]
    exact ⟨rfl, rfl⟩
  · rw [if_neg hdead, if_neg hdead]
    exact ⟨getInner_log_of_hit B s k false i hres,
      getInner_log_of_hit B s k true i hres⟩

/-- Witness for C10: key 0 resident after one insert; both reads leave the
log untouched. -/
theorem c10_witness :
    getByLeft (insert echoBackend (withCapacity 3) 0 0).map 0 = some 0 ∧
    (get echoBackend (insert echoBackend (withCapacity 3) 0 0) 0).2.log =
      (insert echoBackend (withCapacity 3) 0 0).log := by
  have hres : getByLeft (insert echoBackend (withCapacity 3) 0 0).map 0 = some 0 := by
    simp [insert, insertCache, evictLoop, withCapacity, echoBackend, mapInsert,
      getByLeft, List.find?, List.filter]
  exact ⟨hres,
    (c10_hit_no_backend_calls echoBackend (insert echoBackend (withCapacity 3) 0 0)
      0 0 hres).1⟩

end LruCache

namespace LinkedListModel

/-- C8: on a consistent doubly-linked list, `move_to_last` applied to the
node that is already the tail leaves the whole list state (head, tail and
every `next`/`prev` pointer, hence the node order) unchanged. -/
theorem c8_move_to_tail_idempotent (s : LinkedList) (node : Nat)
    (hwf : WFList s) (hlast : s.last = some node) :
    moveToLast s node = s := by
  have hn : s.nxt node = none := hwf.last_nxt node hlast
  have hlone := hwf.lone_first node hlast
  have hcoh := hwf.prv_nxt node
  obtain ⟨f, l, nx, pr⟩ := s
  simp only at hn hlast hlone hcoh
  subst hlast
  unfold moveToLast
  dsimp only
  rw [hn]
  dsimp only
  cases hp : pr node with
  | some q =>
    have hq : nx q = some node := hcoh q hp
    have hne : q ≠ node := by
      intro h; rw [h, hn] at hq; cases hq
    unfold setNodeLast
    dsimp only
    congr 1
    · funext x
      by_cases hxq : x = q
      · subst hxq
        simp [Function.update_apply, hne, hq]
      · by_cases hxn : x = node
        · subst hxn
          simp [Function.update_apply, Ne.symm hne, hn]
        · simp [Function.update_apply, hxq, hxn]
    · rw [Function.update_idem, ← hp, Function.update_eq_self]
  | none =>
    unfold setNodeLast
    dsimp only
    congr 1
    all_goals first
      | rfl
      | exact (hlone hp).symm
      | (rw [← hn]; exact Function.update_eq_self node nx)
      | (rw [← hp]; exact Function.update_eq_self node pr)

end LinkedListModel

namespace LinkedListModel

/-- Witness for C8: the two-node list built by `push 0; push 1`, moving the
tail node 1. -/
theorem c8_witness :
    (push (push llNew 0) 1).last = some 1 ∧
    moveToLast (push (push llNew 0) 1) 1 = push (push llNew 0) 1 := by
  have hnxt : (push (push llNew 0) 1).nxt =
      fun x => if x = 0 then some 1 else none := by
    funext x
    by_cases h1 : x = 1 <;> by_cases h0 : x = 0 <;>
      simp [push, llNew, setNodeLast, Function.update_apply, h1, h0]
  have hprv : (push (push llNew 0) 1).prv =
      fun x => if x = 1 then some 0 else none := by
    funext x
    by_cases h1 : x = 1 <;> by_cases h0 : x = 0 <;>
      simp [push, llNew, setNodeLast, Function.update_apply, h1, h0]
  have hlast : (push (push llNew 0) 1).last = some 1 := by
    simp [push, llNew, setNodeLast]
  have hwf : WFList (push (push llNew 0) 1) := by
    refine ⟨?_, ?_, ?_⟩
    · intro x hx
      rw [hlast] at hx
      cases hx
      rw [hnxt]
      simp
    · intro x y h
      rw [hprv] at h
      dsimp only at h
      split_ifs at h with hx1
      cases h
      subst hx1
      rw [hnxt]
      simp
    · intro x hx hp
      rw [hlast] at hx
      cases hx
      rw [hprv] at hp
      simp at hp
  exact ⟨hlast, c8_move_to_tail_idempotent (push (push llNew 0) 1) 1 hwf hlast⟩

end LinkedListModel

namespace LruCache

theorem timeAt_eq {I V : Type} (cs : List (CacheItem I V)) (j : Nat)
    (h : j < cs.length) : timeAt cs j = (cs.get ⟨j, h⟩).accessed_time := by
  unfold timeAt
  rw [List.getElem?_eq_getElem h]
  rfl

theorem timeAt_append_left {I V : Type} (cs ds : List (CacheItem I V))
    (j : Nat) (h : j < cs.length) : timeAt (cs ++ ds) j = timeAt cs j := by
  unfold timeAt
  rw [List.getElem?_append_left h]

theorem timeAt_mem {I V : Type} (cs : List (CacheItem I V)) (j : Nat)
    (h : j < cs.length) : ∃ e ∈ cs, e.accessed_time = timeAt cs j :=
  ⟨cs.get ⟨j, h⟩, by simp, (timeAt_eq cs j h).symm⟩

theorem distinctTimes_ne {I V : Type} {cs : List (CacheItem I V)}
    (hd : DistinctTimes cs) {p q : Nat} (hp : p < cs.length)
    (hq : q < cs.length) (hne : p ≠ q) : timeAt cs p ≠ timeAt cs q := by
  intro heq
  have hp' : p < (cs.map CacheItem.accessed_time).length := by
    simpa using hp
  have hq' : q < (cs.map CacheItem.accessed_time).length := by
    simpa using hq
  have h1 : (cs.map CacheItem.accessed_time)[p] = timeAt cs p := by
    simp [timeAt_eq cs p hp]
  have h2 : (cs.map CacheItem.accessed_time)[q] = timeAt cs q := by
    simp [timeAt_eq cs q hq]
  have := (List.Nodup.getElem_inj_iff hd).mp (h1.trans (heq.trans h2.symm))
  exact hne this

theorem heap_root_min {I V : Type} {cs : List (CacheItem I V)}
    (hinv : HeapInv cs) (p : Nat) (hp0 : 0 < p) (hp : p < cs.length) :
    timeAt cs 0 < timeAt cs p := by
  induction p using Nat.strong_induction_on with
  | _ p ih =>
    have hedge : p = ((p - 1) / 2) * 2 + 1 ∨ p = ((p - 1) / 2) * 2 + 2 := by
      omega
    have hstep : timeAt cs ((p - 1) / 2) < timeAt cs p :=
      hinv ((p - 1) / 2) p hedge hp
    by_cases hq : (p - 1) / 2 = 0
    · rw [hq] at hstep; exact hstep
    · have hqlt : (p - 1) / 2 < p := by omega
      have := ih ((p - 1) / 2) hqlt (by omega) (lt_trans hqlt hp)
      exact lt_trans this hstep

theorem cons_set_perm {α : Type} (t : List α) (h : α) :
    ∀ (b : Nat) (hb : b < t.length), (t.get ⟨b, hb⟩ :: t.set b h).Perm (h :: t) := by
  induction t with
  | nil => intro b hb; cases hb
  | cons c t' ih =>
    intro b hb
    cases b with
    | zero =>
      exact List.Perm.swap h c t'
    | succ b' =>
      have hb' : b' < t'.length := by simpa using hb
      exact (List.Perm.swap c (t'.get ⟨b', hb'⟩) (t'.set b' h)).trans
        (((ih b' hb').cons c).trans (List.Perm.swap h c t'))

theorem set_set_perm {α : Type} :
    ∀ (l : List α) (a b : Nat) (hab : a < b) (hb : b < l.length),
      ((l.set a (l.get ⟨b, hb⟩)).set b (l.get ⟨a, by omega⟩)).Perm l := by
  intro l
  induction l with
  | nil => intro a b hab hb; cases hb
  | cons h t ih =>
    intro a b hab hb
    cases a with
    | zero =>
      cases b with
      | zero => cases hab
      | succ b' =>
        have hb' : b' < t.length := by simpa using hb
        exact cons_set_perm t h b' hb'
    | succ a' =>
      cases b with
      | zero => cases hab
      | succ b' =>
        have hab' : a' < b' := by omega
        have hb' : b' < t.length := by simpa using hb
        exact (ih a' b' hab' hb').cons h

theorem listSwap_perm {α : Type} (l : List α) (a b : Nat) (hab : a < b)
    (hb : b < l.length) : (listSwap l a b).Perm l := by
  have ha : a < l.length := by omega
  unfold listSwap
  rw [List.getElem?_eq_getElem ha, List.getElem?_eq_getElem hb]
  exact set_set_perm l a b hab hb

theorem listSwap_timeAt {I V : Type} (cs : List (CacheItem I V)) {a b : Nat}
    (hab : a < b) (hb : b < cs.length) (x : Nat) :
    timeAt (listSwap cs a b) x =
      if x = a then timeAt cs b else if x = b then timeAt cs a
      else timeAt cs x := by
  have ha : a < cs.length := by omega
  unfold listSwap
  rw [List.getElem?_eq_getElem ha, List.getElem?_eq_getElem hb]
  unfold timeAt
  by_cases hxb : x = b
  · subst hxb
    rw [if_neg (by omega), if_pos rfl]
    rw [List.getElem?_set_self (by simpa using hb)]
    rw [List.getElem?_eq_getElem ha]
  · rw [List.getElem?_set_ne (fun hh => hxb hh.symm)]
    by_cases hxa : x = a
    · subst hxa
      rw [if_pos rfl]
      rw [List.getElem?_set_self ha, List.getElem?_eq_getElem hb]
    · rw [if_neg hxa, if_neg hxb]
      rw [List.getElem?_set_ne (fun hh => hxa hh.symm)]

end LruCache

namespace LruCache

theorem swapRemove_some {α : Type} {l : List α} {i : Nat} {x : α} {l' : List α}
    (h : swapRemove l i = some (x, l')) :
    ∃ y, l[i]? = some x ∧ l[l.length - 1]? = some y ∧
      l' = (l.set i y).dropLast := by
  unfold swapRemove at h
  cases hx : l[i]? with
  | none => rw [hx] at h; simp at h
  | some a =>
    cases hy : l[l.length - 1]? with
    | none => rw [hx, hy] at h; simp at h
    | some b =>
      rw [hx, hy] at h
      simp only [Option.some.injEq, Prod.mk.injEq] at h
      refine ⟨b, ?_, rfl, h.2.symm⟩
      rw [h.1]

theorem swapRemove_lt {α : Type} {l : List α} {i : Nat} {x : α} {l' : List α}
    (h : swapRemove l i = some (x, l')) : i < l.length := by
  obtain ⟨y, hx, _, _⟩ := swapRemove_some h
  exact (List.getElem?_eq_some_iff.mp hx).1

theorem swapRemove_perm {α : Type} {l : List α} {i : Nat} {x : α} {l' : List α}
    (h : swapRemove l i = some (x, l')) : l.Perm (x :: l') := by
  obtain ⟨y, hx, hy, hl'⟩ := swapRemove_some h
  have hy' : l.getLast? = some y := by
    rw [List.getLast?_eq_getElem?]; exact hy
  obtain ⟨ys, rfl⟩ := List.getLast?_eq_some_iff.mp hy'
  have hilen : i < ys.length + 1 := by
    have := (List.getElem?_eq_some_iff.mp hx).1
    simpa using this
  by_cases hi : i < ys.length
  · have hxi : ys[i]? = some x := by
      rw [List.getElem?_append_left hi] at hx; exact hx
    have hl'' : l' = ys.set i y := by
      rw [hl', List.set_append_left i y hi, List.dropLast_concat]
    subst hl''
    refine (List.perm_append_singleton y ys).trans ?_
    have hxg : ys.get ⟨i, hi⟩ = x := by
      have h2 := List.getElem?_eq_getElem hi
      rw [h2] at hxi
      exact Option.some.inj hxi
    rw [← hxg]
    exact (cons_set_perm ys y i hi).symm
  · have hieq : i = ys.length := by omega
    subst hieq
    have hxy : x = y := by
      rw [List.getElem?_append_right (le_refl _)] at hx
      simp at hx
      exact hx.symm
    have hl'' : l' = ys := by
      rw [hl', List.set_append_right _ _ (le_refl _)]
      simp
    rw [hl'', hxy]
    exact List.perm_append_singleton y ys

theorem swapRemove_timeAt {I V : Type} {l : List (CacheItem I V)} {i : Nat}
    {x : CacheItem I V} {l' : List (CacheItem I V)}
    (h : swapRemove l i = some (x, l')) (j : Nat) (hj : j < l'.length) :
    timeAt l' j = if j = i then timeAt l (l.length - 1) else timeAt l j := by
  obtain ⟨y, hx, hy, hl'⟩ := swapRemove_some h
  have hlen := swapRemove_length l i x l' h
  subst hl'
  unfold timeAt
  rw [List.getElem?_dropLast]
  rw [if_pos (by simp only [List.length_set]; omega)]
  by_cases hji : j = i
  · subst hji
    rw [List.getElem?_set_self (by omega), if_pos rfl, hy]
  · rw [List.getElem?_set_ne (fun hh => hji hh.symm), if_neg hji]

theorem swapRemove_timeAt_self {I V : Type} {l : List (CacheItem I V)} {i : Nat}
    {x : CacheItem I V} {l' : List (CacheItem I V)}
    (h : swapRemove l i = some (x, l')) : x.accessed_time = timeAt l i := by
  obtain ⟨y, hx, _, _⟩ := swapRemove_some h
  unfold timeAt
  rw [hx]
  rfl

end LruCache


namespace LruCache

theorem distinctTimes_perm {I V : Type} {cs ds : List (CacheItem I V)}
    (h : cs.Perm ds) (hd : DistinctTimes cs) : DistinctTimes ds :=
  ((h.map CacheItem.accessed_time).nodup_iff).mp hd

theorem recursiveSwap_perm {I : Type} [DecidableEq I] {V : Type}
    (cache : List (CacheItem I V)) (m : BiMap I) (current : Nat) :
    (recursiveSwap cache m current).1.Perm cache := by
  induction cache, m, current using recursiveSwap.induct with
  | case1 cache m current h1 h2 =>
    rw [recursiveSwap]; simp only [dif_pos h1, if_pos h2]
    exact List.Perm.refl _
  | case2 cache m current h1 h2 h3 m₁ hsw ih =>
    rw [recursiveSwap]
    simp only [dif_pos h1, if_neg h2, if_pos h3, hsw]
    exact ih.trans (listSwap_perm cache current (current * 2 + 1) (by omega) h1)
  | case3 cache m current h1 h2 h3 hsw =>
    rw [recursiveSwap]
    simp only [dif_pos h1, if_neg h2, if_pos h3, hsw]
    exact List.Perm.refl _
  | case4 cache m current h1 h2 h3 m₁ hsw ih =>
    have hr : current * 2 + 2 < cache.length := by
      rcases not_or.mp h3 with ⟨hr', _⟩
      omega
    rw [recursiveSwap]
    simp only [dif_pos h1, if_neg h2, if_neg h3, hsw]
    exact ih.trans (listSwap_perm cache current (current * 2 + 2) (by omega) hr)
  | case5 cache m current h1 h2 h3 hsw =>
    rw [recursiveSwap]
    simp only [dif_pos h1, if_neg h2, if_neg h3, hsw]
    exact List.Perm.refl _
  | case6 cache m current h1 =>
    rw [recursiveSwap]; simp only [dif_neg h1]
    exact List.Perm.refl _

theorem siftPre_swap_left {I V : Type} {cs : List (CacheItem I V)} {i : Nat}
    (hpre : SiftPre cs i) (hd : DistinctTimes cs)
    (h1 : i * 2 + 1 < cs.length)
    (h2 : ¬(timeAt cs i < timeAt cs (i * 2 + 1) ∧
      (cs.length ≤ i * 2 + 2 ∨ timeAt cs i < timeAt cs (i * 2 + 2))))
    (h3 : cs.length ≤ i * 2 + 2 ∨
      timeAt cs (i * 2 + 1) < timeAt cs (i * 2 + 2)) :
    SiftPre (listSwap cs i (i * 2 + 1)) (i * 2 + 1) := by
  have hil : i < i * 2 + 1 := by omega
  have hi : i < cs.length := by omega
  have htime := listSwap_timeAt cs hil h1
  have hkey : timeAt cs (i * 2 + 1) < timeAt cs i := by
    by_cases hA : timeAt cs i < timeAt cs (i * 2 + 1)
    · exfalso
      rcases not_and_or.mp h2 with hc | hc
      · exact hc hA
      · rcases not_or.mp hc with ⟨hrlen, hrtime⟩
        rcases h3 with h3' | h3'
        · exact hrlen h3'
        · omega
    · have hne := distinctTimes_ne hd h1 hi (by omega)
      omega
  constructor
  · intro j k hk hklen hjne
    rw [listSwap_length] at hklen
    rw [htime j, htime k]
    by_cases hki : k = i
    · have hj2 : j = (i - 1) / 2 := by omega
      rw [if_neg (show ¬(j = i) by omega),
        if_neg (show ¬(j = i * 2 + 1) by omega), if_pos hki]
      rw [hj2]
      exact hpre.2 (i * 2 + 1) (Or.inl rfl) h1 (by omega)
    · by_cases hkl : k = i * 2 + 1
      · rw [if_pos (show j = i by omega), if_neg hki, if_pos hkl]
        exact hkey
      · by_cases hji : j = i
        · have hkr : k = i * 2 + 2 := by omega
          rw [if_pos hji, if_neg hki, if_neg hkl]
          rcases h3 with h3' | h3'
          · omega
          · rw [hkr]
            exact h3'
        · rw [if_neg hji, if_neg hjne, if_neg hki, if_neg hkl]
          exact hpre.1 j k hk hklen hji
  · intro k hk hklen h0
    rw [listSwap_length] at hklen
    have hpar : (i * 2 + 1 - 1) / 2 = i := by omega
    rw [hpar, htime i, htime k]
    rw [if_pos rfl, if_neg (show ¬(k = i) by omega),
      if_neg (show ¬(k = i * 2 + 1) by omega)]
    exact hpre.1 (i * 2 + 1) k hk hklen (by omega)

theorem siftPre_swap_right {I V : Type} {cs : List (CacheItem I V)} {i : Nat}
    (hpre : SiftPre cs i) (hd : DistinctTimes cs)
    (h1 : i * 2 + 1 < cs.length)
    (h2 : ¬(timeAt cs i < timeAt cs (i * 2 + 1) ∧
      (cs.length ≤ i * 2 + 2 ∨ timeAt cs i < timeAt cs (i * 2 + 2))))
    (h3 : ¬(cs.length ≤ i * 2 + 2 ∨
      timeAt cs (i * 2 + 1) < timeAt cs (i * 2 + 2))) :
    SiftPre (listSwap cs i (i * 2 + 2)) (i * 2 + 2) := by
  rcases not_or.mp h3 with ⟨hrlen', hlr'⟩
  have hr : i * 2 + 2 < cs.length := by omega
  have hir : i < i * 2 + 2 := by omega
  have hi : i < cs.length := by omega
  have htime := listSwap_timeAt cs hir hr
  have hrl : timeAt cs (i * 2 + 2) < timeAt cs (i * 2 + 1) := by
    have hne := distinctTimes_ne hd h1 hr (show i * 2 + 1 ≠ i * 2 + 2 by omega)
    omega
  have hkey : timeAt cs (i * 2 + 2) < timeAt cs i := by
    by_cases hA : timeAt cs i < timeAt cs (i * 2 + 1)
    · rcases not_and_or.mp h2 with hc | hc
      · exact absurd hA hc
      · rcases not_or.mp hc with ⟨_, hrtime⟩
        have hne := distinctTimes_ne hd hr hi (show i * 2 + 2 ≠ i by omega)
        omega
    · have hne1 := distinctTimes_ne hd h1 hi (show i * 2 + 1 ≠ i by omega)
      omega
  constructor
  · intro j k hk hklen hjne
    rw [listSwap_length] at hklen
    rw [htime j, htime k]
    by_cases hki : k = i
    · have hj2 : j = (i - 1) / 2 := by omega
      rw [if_neg (show ¬(j = i) by omega),
        if_neg (show ¬(j = i * 2 + 2) by omega), if_pos hki]
      rw [hj2]
      exact hpre.2 (i * 2 + 2) (Or.inr rfl) hr (by omega)
    · by_cases hkr : k = i * 2 + 2
      · rw [if_pos (show j = i by omega), if_neg hki, if_pos hkr]
        exact hkey
      · by_cases hji : j = i
        · have hkl : k = i * 2 + 1 := by omega
          rw [if_pos hji, if_neg hki, if_neg hkr, hkl]
          exact hrl
        · rw [if_neg hji, if_neg hjne, if_neg hki, if_neg hkr]
          exact hpre.1 j k hk hklen hji
  · intro k hk hklen h0
    rw [listSwap_length] at hklen
    have hpar : (i * 2 + 2 - 1) / 2 = i := by omega
    rw [hpar, htime i, htime k]
    rw [if_pos rfl, if_neg (show ¬(k = i) by omega),
      if_neg (show ¬(k = i * 2 + 2) by omega)]
    exact hpre.1 (i * 2 + 2) k hk hklen (by omega)

theorem recursiveSwap_heap {I : Type} [DecidableEq I] {V : Type}
    (cache : List (CacheItem I V)) (m : BiMap I) (current : Nat)
    (hpre : SiftPre cache current) (hd : DistinctTimes cache)
    (hok : (recursiveSwap cache m current).2.2 = false) :
    HeapInv (recursiveSwap cache m current).1 := by
  induction cache, m, current using recursiveSwap.induct with
  | case1 cache m current h1 h2 =>
    rw [recursiveSwap]
    simp only [dif_pos h1, if_pos h2]
    intro j k hk hklen
    by_cases hj : j = current
    · rcases hk with hk | hk
      · rw [hk, hj]
        exact h2.1
      · rw [hk, hj]
        rcases h2.2 with hcase | hcase
        · omega
        · exact hcase
    · exact hpre.1 j k hk hklen hj
  | case2 cache m current h1 h2 h3 m₁ hsw ih =>
    rw [recursiveSwap] at hok ⊢
    simp only [dif_pos h1, if_neg h2, if_pos h3, hsw] at hok ⊢
    exact ih (siftPre_swap_left hpre hd h1 h2 h3)
      (distinctTimes_perm (listSwap_perm cache current (current * 2 + 1)
        (by omega) h1).symm hd) hok
  | case3 cache m current h1 h2 h3 hsw =>
    rw [recursiveSwap] at hok
    simp only [dif_pos h1, if_neg h2, if_pos h3, hsw] at hok
    simp at hok
  | case4 cache m current h1 h2 h3 m₁ hsw ih =>
    have hr : current * 2 + 2 < cache.length := by
      rcases not_or.mp h3 with ⟨hr', _⟩
      omega
    rw [recursiveSwap] at hok ⊢
    simp only [dif_pos h1, if_neg h2, if_neg h3, hsw] at hok ⊢
    exact ih (siftPre_swap_right hpre hd h1 h2 h3)
      (distinctTimes_perm (listSwap_perm cache current (current * 2 + 2)
        (by omega) hr).symm hd) hok
  | case5 cache m current h1 h2 h3 hsw =>
    rw [recursiveSwap] at hok
    simp only [dif_pos h1, if_neg h2, if_neg h3, hsw] at hok
    simp at hok
  | case6 cache m current h1 =>
    rw [recursiveSwap]
    simp only [dif_neg h1]
    intro j k hk hklen
    by_cases hj : j = current
    · omega
    · exact hpre.1 j k hk hklen hj

end LruCache

namespace LruCache

theorem writeBacks_append_getWeight {I V : Type} (log : List (Event I V)) (i : I) :
    writeBacks (log ++ [Event.getWeight i]) = writeBacks log := by
  simp [writeBacks]

theorem writeBacks_append_wb {I V : Type} (log : List (Event I V)) (i : I)
    (v : V) (u : Bool) :
    writeBacks (log ++ [Event.getWeight i, Event.writeBack i v u]) =
      writeBacks log ++ [(i, v, u)] := by
  simp [writeBacks]

/-- Full characterisation of one `unload_newest` call on a heap-shaped
cache: either it panics without delivering any `write_back` (losing at most
the removed root from the cache), or it removes exactly the heap root — the
entry with the strictly smallest stamp — delivers exactly one `write_back`
carrying that entry's index, item and dirty bit, and leaves a heap-shaped
cache of strictly larger stamps. -/
theorem unloadNewest_spec {I : Type} [DecidableEq I] {V : Type}
    (B : Backend I V) (s : LRU I V) (hne : s.cache ≠ [])
    (hinv : HeapInv s.cache) (hd : DistinctTimes s.cache) :
    ((unloadNewest B s).2.panicked = true ∧
      writeBacks (unloadNewest B s).2.log = writeBacks s.log ∧
      ∃ d, s.cache.Perm (d ++ (unloadNewest B s).2.cache)) ∨
    (∃ e, s.cache[0]? = some e ∧
      (unloadNewest B s).2.panicked = s.panicked ∧
      (unloadNewest B s).2.diverged = s.diverged ∧
      (unloadNewest B s).2.current_time = s.current_time ∧
      (unloadNewest B s).2.weight_sum = s.weight_sum ∧
      (unloadNewest B s).2.capacity = s.capacity ∧
      (unloadNewest B s).1 = B.weight e.index e.item ∧
      writeBacks (unloadNewest B s).2.log =
        writeBacks s.log ++ [(e.index, e.item, e.updated)] ∧
      s.cache.Perm (e :: (unloadNewest B s).2.cache) ∧
      HeapInv (unloadNewest B s).2.cache ∧
      (∀ f ∈ (unloadNewest B s).2.cache, e.accessed_time < f.accessed_time)) := by
  have hE : s.cache.isEmpty = false := by
    cases hc : s.cache with
    | nil => exact absurd hc hne
    | cons a t => simp [hc]
  unfold unloadNewest
  simp only [hE, Bool.false_eq_true, if_false]
  cases hsw : swapByRight s.map 0 (s.cache.length - 1) with
  | none =>
    exact Or.inl ⟨rfl, rfl, [], by simp⟩
  | some m₁ =>
    dsimp only
    cases hsr : swapRemove s.cache 0 with
    | none =>
      exact Or.inl ⟨rfl, rfl, [], by simp⟩
    | some p =>
      obtain ⟨e, cache₁⟩ := p
      dsimp only
      have hperm1 : s.cache.Perm (e :: cache₁) := swapRemove_perm hsr
      have hd1 : DistinctTimes cache₁ := by
        have h2 := distinctTimes_perm hperm1 hd
        exact List.Nodup.of_cons h2
      have hlen1 : cache₁.length + 1 = s.cache.length :=
        swapRemove_length s.cache 0 e cache₁ hsr
      have hpre : SiftPre cache₁ 0 := by
        constructor
        · intro j k hk hklen hj0
          have hjlt : j < cache₁.length := by omega
          have h1 := swapRemove_timeAt hsr j hjlt
          have h2 := swapRemove_timeAt hsr k hklen
          rw [if_neg hj0] at h1
          rw [if_neg (show ¬(k = 0) by omega)] at h2
          rw [h1, h2]
          exact hinv j k hk (by omega)
        · intro k hk hklen h0
          omega
      have hperm2 : (recursiveSwap cache₁
          (removeByRight m₁ (s.cache.length - 1)).2 0).1.Perm cache₁ :=
        recursiveSwap_perm _ _ _
      have he0 : s.cache[0]? = some e := (swapRemove_some hsr).elim
        (fun y hy => hy.1)
      have hemin : ∀ f ∈ cache₁, e.accessed_time < f.accessed_time := by
        intro f hf
        obtain ⟨⟨pf, hpf⟩, hget⟩ := List.mem_iff_get.mp hf
        have htf := swapRemove_timeAt hsr pf hpf
        have he := swapRemove_timeAt_self hsr
        have hft : f.accessed_time = timeAt cache₁ pf := by
          rw [← hget, timeAt_eq cache₁ pf hpf]
        by_cases hp0 : pf = 0
        · rw [if_pos hp0] at htf
          have : 0 < s.cache.length - 1 := by omega
          have hroot := heap_root_min hinv (s.cache.length - 1) this (by omega)
          rw [hft, htf, he]
          exact hroot
        · rw [if_neg hp0] at htf
          have hroot := heap_root_min hinv pf (by omega) (by omega)
          rw [hft, htf, he]
          exact hroot
      rcases hpk : (recursiveSwap cache₁
          (removeByRight m₁ (s.cache.length - 1)).2 0).2.2 with _ | _
      · -- no panic in the sift
        simp only [Bool.false_eq_true, if_false]
        refine Or.inr ⟨e, he0, by trivial, by trivial, by trivial, by trivial,
          by trivial, by trivial, ?_, ?_, ?_, ?_⟩
        · exact writeBacks_append_wb s.log e.index e.item e.updated
        · exact hperm1.trans (hperm2.symm.cons e)
        · have := recursiveSwap_heap cache₁
            (removeByRight m₁ (s.cache.length - 1)).2 0 hpre hd1 hpk
          exact this
        · intro f hf
          exact hemin f ((hperm2.mem_iff).mp hf)
      · -- the sift panicked
        rw [if_pos rfl]
        refine Or.inl ⟨rfl, writeBacks_append_getWeight s.log e.index,
          [e], ?_⟩
        exact hperm1.trans ((hperm2.symm.cons e))

end LruCache

namespace LruCache

/-- Characterisation of the whole eviction loop: the delivered `write_back`
calls form a list `es` of entries removed from the cache, in strictly
increasing stamp order (i.e. least recently used first), each strictly
older than everything that stays; when the loop finishes normally the
remaining cache is exactly the complement and is still heap-shaped. -/
theorem evictLoop_spec {I : Type} [DecidableEq I] (B : Backend I V)
    (s : LRU I V) :
    HeapInv s.cache → DistinctTimes s.cache →
    ∃ es rest,
      s.cache.Perm (es ++ rest) ∧
      writeBacks (evictLoop B s).log =
        writeBacks s.log ++ es.map (fun e => (e.index, e.item, e.updated)) ∧
      es.Chain' (fun a b => a.accessed_time < b.accessed_time) ∧
      (∀ e ∈ es, ∀ f ∈ rest, e.accessed_time < f.accessed_time) ∧
      ((evictLoop B s).panicked = false → (evictLoop B s).diverged = false →
        (evictLoop B s).cache.Perm rest ∧ HeapInv (evictLoop B s).cache) := by
  induction s using evictLoop.induct B with
  | case1 x h =>
    intro hinv hd
    rw [evictLoop, if_pos h]
    exact ⟨[], x.cache, by simp, by simp, by simp, by simp,
      fun _ _ => ⟨List.Perm.refl _, hinv⟩⟩
  | case2 x h1 h2 =>
    intro hinv hd
    rw [evictLoop, if_neg h1, if_pos h2]
    refine ⟨[], x.cache, by simp, by simp, by simp, by simp, ?_⟩
    intro _ hdv
    simp at hdv
  | case3 x h1 h2 r h3 =>
    intro hinv hd
    have hne : x.cache ≠ [] := by
      intro hc
      exact h2 (by simp [hc])
    rw [evictLoop, if_neg h1, if_neg h2, if_pos h3]
    rcases unloadNewest_spec B x hne hinv hd with
      ⟨hpk, hwb, d, hperm⟩ | ⟨e, he0, hpk, hdv, hct, hws, hcap, hw, hwb, hperm, hheap, hmin⟩
    · refine ⟨[], d ++ (unloadNewest B x).2.cache, by simpa using hperm,
        by simpa using hwb, by simp, by simp, ?_⟩
      intro hp _
      rw [hp] at hpk
      cases hpk
    · refine ⟨[e], (unloadNewest B x).2.cache, by simpa using hperm,
        by simpa using hwb, by simp, ?_, ?_⟩
      · intro a ha f hf
        rcases List.mem_singleton.mp ha with rfl
        exact hmin f hf
      · intro hp _
        rw [hp] at h3
        exact Bool.noConfusion h3
  | case4 x h1 h2 r h3 h4 =>
    intro hinv hd
    have hne : x.cache ≠ [] := by
      intro hc
      exact h2 (by simp [hc])
    rw [evictLoop, if_neg h1, if_neg h2, if_neg h3, if_pos h4]
    rcases unloadNewest_spec B x hne hinv hd with
      ⟨hpk, hwb, d, hperm⟩ | ⟨e, he0, hpk, hdv, hct, hws, hcap, hw, hwb, hperm, hheap, hmin⟩
    · refine ⟨[], d ++ (unloadNewest B x).2.cache, by simpa using hperm,
        by simpa using hwb, by simp, by simp, ?_⟩
      intro hp _
      simp at hp
    · refine ⟨[e], (unloadNewest B x).2.cache, by simpa using hperm,
        by simpa using hwb, by simp, ?_, ?_⟩
      · intro a ha f hf
        rcases List.mem_singleton.mp ha with rfl
        exact hmin f hf
      · intro hp _
        simp at hp
  | case5 x h1 h2 r h3 h4 ih =>
    intro hinv hd
    have hne : x.cache ≠ [] := by
      intro hc
      exact h2 (by simp [hc])
    rw [evictLoop, if_neg h1, if_neg h2, if_neg h3, if_neg h4]
    rcases unloadNewest_spec B x hne hinv hd with
      ⟨hpk, hwb, d, hperm⟩ | ⟨e, he0, hpk, hdv, hct, hws, hcap, hw, hwb, hperm, hheap, hmin⟩
    · exact absurd hpk h3
    · have hd2 : DistinctTimes (unloadNewest B x).2.cache :=
        List.Nodup.of_cons (distinctTimes_perm hperm hd)
      obtain ⟨es', rest', hP, hW, hC, hM, hT⟩ := ih hheap hd2
      refine ⟨e :: es', rest', ?_, ?_, ?_, ?_, hT⟩
      · exact hperm.trans (hP.cons e)
      · rw [hW]
        simp only [List.map_cons]
        rw [hwb]
        simp [List.append_assoc]
      · rw [List.chain'_cons']
        refine ⟨?_, hC⟩
        intro y hy
        have hy' : y ∈ es' := List.mem_of_mem_head? hy
        have : y ∈ (unloadNewest B x).2.cache :=
          hP.mem_iff.mpr (List.mem_append_left _ hy')
        exact hmin y this
      · intro a ha f hf
        rcases List.mem_cons.mp ha with rfl | ha'
        · exact hmin f (hP.mem_iff.mpr (List.mem_append_right _ hf))
        · exact hM a ha' f hf

end LruCache

namespace LruCache

theorem timeAt_concat_self {I V : Type} (A : List (CacheItem I V))
    (x : CacheItem I V) : timeAt (A ++ [x]) A.length = x.accessed_time := by
  unfold timeAt
  rw [List.getElem?_append_right (le_refl _)]
  simp

theorem timeAt_le_of_bound {I V : Type} {A : List (CacheItem I V)} {T : Nat}
    (hb : TimesBound A T) {j : Nat} (hj : j < A.length) : timeAt A j ≤ T := by
  obtain ⟨e, he, hte⟩ := timeAt_mem A j hj
  rw [← hte]
  exact hb e he

/-- Full characterisation of `insert_cache`: the delivered write-backs `es`
are removed cache entries in strictly increasing stamp order, each older
than everything kept, and on normal return the new cache consists of the
kept entries plus the freshly stamped new entry at the heap end, and the
heap-shape invariant holds again. -/
theorem insertCache_spec {I : Type} [DecidableEq I] {V : Type}
    (B : Backend I V) (s : LRU I V) (k : I) (v : V) (u : Bool)
    (hI : Inv s) :
    ∃ es rest,
      s.cache.Perm (es ++ rest) ∧
      (∀ e ∈ es, e ∈ s.cache) ∧ (∀ f ∈ rest, f ∈ s.cache) ∧
      writeBacks (insertCache B s k v u).log =
        writeBacks s.log ++ es.map (fun e => (e.index, e.item, e.updated)) ∧
      es.Chain' (fun a b => a.accessed_time < b.accessed_time) ∧
      (∀ e ∈ es, ∀ f ∈ rest, e.accessed_time < f.accessed_time) ∧
      ((insertCache B s k v u).panicked = false →
        (insertCache B s k v u).diverged = false →
        (insertCache B s k v u).cache.Perm
          (rest ++ [⟨s.current_time + 1, k, v, u⟩]) ∧
        (insertCache B s k v u).cache.getLast? =
          some ⟨s.current_time + 1, k, v, u⟩ ∧
        (insertCache B s k v u).current_time = s.current_time + 1 ∧
        Inv (insertCache B s k v u)) := by
  obtain ⟨hheap, hlast, hbound, hdist⟩ := hI
  have hspec := evictLoop_spec B { s with current_time := s.current_time + 1 }
    hheap hdist
  obtain ⟨es, rest, hP, hW, hC, hM, hT⟩ := hspec
  have hmemes : ∀ e ∈ es, e ∈ s.cache := by
    intro e he
    exact hP.mem_iff.mpr (List.mem_append_left _ he)
  have hmemrest : ∀ f ∈ rest, f ∈ s.cache := by
    intro f hf
    exact hP.mem_iff.mpr (List.mem_append_right _ hf)
  unfold insertCache
  by_cases hflag :
      ((evictLoop B { s with current_time := s.current_time + 1 }).panicked = true ∨
        (evictLoop B { s with current_time := s.current_time + 1 }).diverged = true)
  · rw [if_pos hflag]
    refine ⟨es, rest, hP, hmemes, hmemrest, hW, hC, hM, ?_⟩
    intro hp hd
    rcases hflag with h | h
    · rw [hp] at h; cases h
    · rw [hd] at h; cases h
  · rw [if_neg hflag]
    have hpk : (evictLoop B { s with current_time := s.current_time + 1 }).panicked
        = false := by
      cases hh : (evictLoop B { s with current_time := s.current_time + 1 }).panicked
      · rfl
      · exact absurd (Or.inl hh) hflag
    have hdv : (evictLoop B { s with current_time := s.current_time + 1 }).diverged
        = false := by
      cases hh : (evictLoop B { s with current_time := s.current_time + 1 }).diverged
      · rfl
      · exact absurd (Or.inr hh) hflag
    obtain ⟨hPerm1, hheap1⟩ := hT hpk hdv
    have hct : (evictLoop B { s with current_time := s.current_time + 1 }).current_time
        = s.current_time + 1 := by
      have h := evictLoop_current_time B { s with current_time := s.current_time + 1 }
      exact h
    set s₁ := evictLoop B { s with current_time := s.current_time + 1 } with hs₁
    have hnew : (⟨s.current_time + 1, k, v, u⟩ : CacheItem I V).accessed_time
        = s.current_time + 1 := rfl
    have hbound1 : TimesBound s₁.cache s.current_time := by
      intro f hf
      exact hbound f (hmemrest f (hPerm1.mem_iff.mp hf))
    refine ⟨es, rest, hP, hmemes, hmemrest, ?_, hC, hM, ?_⟩
    · rw [writeBacks_append_getWeight, hW]
    · intro _ _
      refine ⟨?_, ?_, ?_, ?_, ?_, ?_, ?_⟩
      · exact hPerm1.append_right _
      · exact List.getLast?_concat _
      · exact hct
      · -- HeapInv of the appended cache
        intro j q hq hqlen
        simp only [List.length_append, List.length_cons, List.length_nil] at hqlen
        by_cases hqlast : q = s₁.cache.length
        · have hjlt : j < s₁.cache.length := by omega
          rw [hqlast, timeAt_concat_self, timeAt_append_left _ _ j hjlt]
          have := timeAt_le_of_bound hbound1 hjlt
          omega
        · have hqlt : q < s₁.cache.length := by omega
          have hjlt : j < s₁.cache.length := by omega
          rw [timeAt_append_left _ _ j hjlt, timeAt_append_left _ _ q hqlt]
          exact hheap1 j q hq hqlt
      · -- LastMax
        intro j hj
        simp only [List.length_append, List.length_cons, List.length_nil] at hj ⊢
        have hlen : s₁.cache.length + 1 - 1 = s₁.cache.length := by omega
        rw [hlen, timeAt_concat_self, timeAt_append_left _ _ j (by omega)]
        have := timeAt_le_of_bound hbound1 (j := j) (by omega)
        omega
      · -- TimesBound at the new clock
        intro f hf
        show f.accessed_time ≤ s₁.current_time
        rcases List.mem_append.mp hf with hf' | hf'
        · have := hbound1 f hf'
          omega
        · rcases List.mem_singleton.mp hf' with rfl
          omega
      · -- DistinctTimes
        have hn1 : DistinctTimes s₁.cache := by
          have h1 : DistinctTimes rest := by
            have h2 := distinctTimes_perm hP hdist
            unfold DistinctTimes at h2 ⊢
            rw [List.map_append] at h2
            exact (List.nodup_append.mp h2).2.1
          exact distinctTimes_perm hPerm1.symm h1
        unfold DistinctTimes
        rw [List.map_append]
        rw [List.nodup_append]
        refine ⟨hn1, by simp, ?_⟩
        intro t ht ht'
        simp only [List.map_cons, List.map_nil, List.mem_singleton] at ht'
        obtain ⟨f, hf, rfl⟩ := List.mem_map.mp ht
        have h6 := hbound1 f hf
        omega

end LruCache

namespace LruCache

theorem writeBacks_append_load {I V : Type} (log : List (Event I V)) (i : I) :
    writeBacks (log ++ [Event.load i]) = writeBacks log := by
  simp [writeBacks]

theorem chain'_lt_pairwise_lt {I V : Type} : ∀ {es : List (CacheItem I V)},
    es.Chain' (fun a b => a.accessed_time < b.accessed_time) →
    es.Pairwise (fun a b => a.accessed_time < b.accessed_time) := by
  intro es
  induction es with
  | nil =>
    intro _
    exact List.Pairwise.nil
  | cons a t ih =>
    intro h
    rw [List.chain'_cons'] at h
    obtain ⟨hhead, htail⟩ := h
    have hp := ih htail
    refine List.Pairwise.cons ?_ hp
    intro b hb
    cases t with
    | nil => cases hb
    | cons c t' =>
      have hac : a.accessed_time < c.accessed_time := hhead c rfl
      rcases List.mem_cons.mp hb with rfl | hb'
      · omega
      · have hcb := (List.pairwise_cons.mp hp).1 b hb'
        omega

theorem chain'_lt_pairwise {I V : Type} {es : List (CacheItem I V)}
    (h : es.Chain' (fun a b => a.accessed_time < b.accessed_time)) :
    es.Pairwise (fun a b => a.accessed_time ≠ b.accessed_time) :=
  (chain'_lt_pairwise_lt h).imp (fun hab => Nat.ne_of_lt hab)

theorem inv_append_fresh {I V : Type} {cs : List (CacheItem I V)} {T : Nat}
    (hheap : HeapInv cs) (hbound : TimesBound cs T) (hd : DistinctTimes cs)
    (e : CacheItem I V) (he : e.accessed_time = T + 1) :
    HeapInv (cs ++ [e]) ∧ LastMax (cs ++ [e]) ∧
      TimesBound (cs ++ [e]) (T + 1) ∧ DistinctTimes (cs ++ [e]) := by
  refine ⟨?_, ?_, ?_, ?_⟩
  · intro j q hq hqlen
    simp only [List.length_append, List.length_cons, List.length_nil] at hqlen
    by_cases hqlast : q = cs.length
    · have hjlt : j < cs.length := by omega
      rw [hqlast, timeAt_concat_self, timeAt_append_left _ _ j hjlt]
      have h5 := timeAt_le_of_bound hbound hjlt
      omega
    · have hqlt : q < cs.length := by omega
      have hjlt : j < cs.length := by omega
      rw [timeAt_append_left _ _ j hjlt, timeAt_append_left _ _ q hqlt]
      exact hheap j q hq hqlt
  · intro j hj
    simp only [List.length_append, List.length_cons, List.length_nil] at hj ⊢
    have hlen : cs.length + 1 - 1 = cs.length := by omega
    rw [hlen, timeAt_concat_self, timeAt_append_left _ _ j (by omega)]
    have h5 := timeAt_le_of_bound hbound (j := j) (by omega)
    omega
  · intro f hf
    rcases List.mem_append.mp hf with hf' | hf'
    · have h5 := hbound f hf'
      omega
    · rcases List.mem_singleton.mp hf' with rfl
      omega
  · unfold DistinctTimes
    rw [List.map_append, List.nodup_append]
    refine ⟨hd, by simp, ?_⟩
    intro t ht ht'
    simp only [List.map_cons, List.map_nil, List.mem_singleton] at ht'
    obtain ⟨f, hf, rfl⟩ := List.mem_map.mp ht
    have h6 := hbound f hf
    omega

theorem siftPre_of_swapRemove {I V : Type} {l : List (CacheItem I V)} {i : Nat}
    {x : CacheItem I V} {l' : List (CacheItem I V)}
    (hheap : HeapInv l) (hlast : LastMax l)
    (h : swapRemove l i = some (x, l')) : SiftPre l' i := by
  have hlen := swapRemove_length l i x l' h
  have hil := swapRemove_lt h
  constructor
  · intro j k hk hklen hjne
    have hjlt : j < l'.length := by omega
    have h1 := swapRemove_timeAt h j hjlt
    have h2 := swapRemove_timeAt h k hklen
    rw [if_neg hjne] at h1
    rw [h1, h2]
    by_cases hki : k = i
    · rw [if_pos hki]
      exact hlast j (by omega)
    · rw [if_neg hki]
      exact hheap j k hk (by omega)
  · intro k hk hklen h0
    have hpj : i = ((i - 1) / 2) * 2 + 1 ∨ i = ((i - 1) / 2) * 2 + 2 := by omega
    have hpar : (i - 1) / 2 < l'.length := by omega
    have h1 := swapRemove_timeAt h ((i - 1) / 2) hpar
    have h2 := swapRemove_timeAt h k hklen
    rw [if_neg (show ¬((i - 1) / 2 = i) by omega)] at h1
    rw [if_neg (show ¬(k = i) by omega)] at h2
    rw [h1, h2]
    have ha := hheap ((i - 1) / 2) i hpj hil
    have hb := hheap i k hk (by omega)
    omega

end LruCache

namespace LruCache

/-- Characterisation of a cache hit in `get_inner`: no backend event of any
kind is appended to the log and the divergence flag is untouched; when the
call returns without panicking, exactly the slot found through the map is
removed from the heap vector and re-appended at the end with the fresh
stamp and the or-ed dirty bit, the stored item is returned, the clock is
bumped once, and the heap-shape invariant holds again. -/
theorem getInner_hit_spec {I : Type} [DecidableEq I] {V : Type}
    (B : Backend I V) (s : LRU I V) (k : I) (u : Bool) (i : Nat)
    (hI : Inv s) (hhit : getByLeft s.map k = some i) :
    (getInner B s k u).2.log = s.log ∧
    (getInner B s k u).2.diverged = s.diverged ∧
    ((getInner B s k u).2.panicked = false →
      ∃ e rest,
        s.cache.Perm (e :: rest) ∧
        (getInner B s k u).2.cache.Perm
          (rest ++ [(⟨s.current_time + 1, e.index, e.item, e.updated || u⟩ :
            CacheItem I V)]) ∧
        (getInner B s k u).2.cache.getLast? =
          some (⟨s.current_time + 1, e.index, e.item, e.updated || u⟩ :
            CacheItem I V) ∧
        (getInner B s k u).1 = some e.item ∧
        (getInner B s k u).2.current_time = s.current_time + 1 ∧
        Inv (getInner B s k u).2) := by
  obtain ⟨hheap, hlast, hbound, hdist⟩ := hI
  unfold getInner
  rw [hhit]
  dsimp only
  cases hsr : swapRemove s.cache i with
  | none =>
    refine ⟨rfl, rfl, ?_⟩
    intro hpk
    exact Bool.noConfusion hpk
  | some p =>
    obtain ⟨e₀, cache₁⟩ := p
    dsimp only
    cases hgr : getByRight s.map cache₁.length with
    | none =>
      refine ⟨rfl, rfl, ?_⟩
      intro hpk
      exact Bool.noConfusion hpk
    | some x =>
      dsimp only
      rcases hpk2 : (recursiveSwap cache₁ (mapInsert s.map x i) i).2.2 with _ | _
      · -- the sift finished without hitting the unreachable branch
        simp only [Bool.false_eq_true, if_false]
        refine ⟨by trivial, by trivial, ?_⟩
        intro _
        have hperm1 : s.cache.Perm (e₀ :: cache₁) := swapRemove_perm hsr
        have hpermr : (recursiveSwap cache₁ (mapInsert s.map x i) i).1.Perm cache₁ :=
          recursiveSwap_perm _ _ _
        have hpre : SiftPre cache₁ i := siftPre_of_swapRemove hheap hlast hsr
        have hd1 : DistinctTimes cache₁ :=
          List.Nodup.of_cons (distinctTimes_perm hperm1 hdist)
        have hheap1 : HeapInv (recursiveSwap cache₁ (mapInsert s.map x i) i).1 :=
          recursiveSwap_heap cache₁ (mapInsert s.map x i) i hpre hd1 hpk2
        have hd2 : DistinctTimes (recursiveSwap cache₁ (mapInsert s.map x i) i).1 :=
          distinctTimes_perm hpermr.symm hd1
        have hbound1 :
            TimesBound (recursiveSwap cache₁ (mapInsert s.map x i) i).1
              s.current_time := by
          intro f hf
          exact hbound f (hperm1.mem_iff.mpr
            (List.mem_cons_of_mem _ (hpermr.mem_iff.mp hf)))
        obtain ⟨hA, hB, hC, hD⟩ := inv_append_fresh hheap1 hbound1 hd2
          (⟨s.current_time + 1, e₀.index, e₀.item, e₀.updated || u⟩ :
            CacheItem I V) rfl
        refine ⟨e₀, cache₁, hperm1, hpermr.append_right _,
          List.getLast?_concat _, by trivial, by trivial, ?_⟩
        exact ⟨hA, hB, hC, hD⟩
      · -- the sift hit the unreachable branch: a dead state, log untouched
        rw [if_pos rfl]
        refine ⟨rfl, rfl, ?_⟩
        intro hpk
        exact Bool.noConfusion hpk

/-- On a miss whose backend load succeeds, `get_inner` is exactly
`insert_cache` run after logging the load call. -/
theorem getInner_miss_load {I : Type} [DecidableEq I] {V : Type}
    (B : Backend I V) (s : LRU I V) (k : I) (u : Bool)
    (hmiss : getByLeft s.map k = none) (v : V) (hld : B.load k = some v) :
    (getInner B s k u).2 =
      insertCache B { s with log := s.log ++ [Event.load k] } k v u := by
  unfold getInner
  rw [hmiss]
  dsimp only
  rw [hld]
  dsimp only
  split
  · rfl
  · rfl

/-- On a miss whose backend load reports absence, `get_inner` only appends
the load call to the log. -/
theorem getInner_miss_absent {I : Type} [DecidableEq I] {V : Type}
    (B : Backend I V) (s : LRU I V) (k : I) (u : Bool)
    (hmiss : getByLeft s.map k = none) (hld : B.load k = none) :
    (getInner B s k u).2 = { s with log := s.log ++ [Event.load k] } := by
  unfold getInner
  rw [hmiss]
  dsimp only
  rw [hld]

end LruCache

namespace LruCache

/-- Model of a `get_inner` call from a heap-shaped state leaves a good
state: either a flag is raised or the heap-shape invariant holds again. -/
theorem getInner_good {I : Type} [DecidableEq I] {V : Type}
    (B : Backend I V) (s : LRU I V) (k : I) (u : Bool) (hI : Inv s) :
    Good (getInner B s k u).2 := by
  cases hhit : getByLeft s.map k with
  | some i =>
    obtain ⟨hlog, hdvg, hcond⟩ := getInner_hit_spec B s k u i hI hhit
    rcases hp : (getInner B s k u).2.panicked with _ | _
    · obtain ⟨e, rest, h1, h2, h3, h4, h5, hinv⟩ := hcond hp
      exact Or.inr (Or.inr hinv)
    · exact Or.inl hp
  | none =>
    cases hld : B.load k with
    | some v =>
      rw [getInner_miss_load B s k u hhit v hld]
      have hI2 : Inv ({ s with log := s.log ++ [Event.load k] } : LRU I V) := hI
      obtain ⟨es, rest, h1, h2, h3, h4, h5, h6, hcond⟩ :=
        insertCache_spec B { s with log := s.log ++ [Event.load k] } k v u hI2
      rcases hp : (insertCache B { s with log := s.log ++ [Event.load k] }
          k v u).panicked with _ | _
      · rcases hd : (insertCache B { s with log := s.log ++ [Event.load k] }
            k v u).diverged with _ | _
        · exact Or.inr (Or.inr (hcond hp hd).2.2.2)
        · exact Or.inr (Or.inl hd)
      · exact Or.inl hp
    | none =>
      rw [getInner_miss_absent B s k u hhit hld]
      exact Or.inr (Or.inr hI)

/-- Model fact: each public operation maps a good state to a good state. -/
theorem applyOp_good {I : Type} [DecidableEq I] {V : Type}
    (B : Backend I V) (s : LRU I V) (o : Op I V) (hg : Good s) :
    Good (applyOp B s o) := by
  by_cases hdead : (s.panicked = true ∨ s.diverged = true)
  · have hres : applyOp B s o = s := by
      cases o with
      | ins k v =>
        show insert B s k v = s
        unfold insert
        rw [if_pos hdead]
      | get k =>
        show (get B s k).2 = s
        unfold get
        rw [if_pos hdead]
      | getMut k =>
        show (getMut B s k).2 = s
        unfold getMut
        rw [if_pos hdead]
    rw [hres]
    exact hg
  · have hI : Inv s := by
      rcases hg with h | h | h
      · exact absurd (Or.inl h) hdead
      · exact absurd (Or.inr h) hdead
      · exact h
    cases o with
    | ins k v =>
      have hres : applyOp B s (Op.ins k v) = insertCache B s k v true := by
        show insert B s k v = _
        unfold insert
        rw [if_neg hdead]
      rw [hres]
      obtain ⟨es, rest, h1, h2, h3, h4, h5, h6, hcond⟩ :=
        insertCache_spec B s k v true hI
      rcases hp : (insertCache B s k v true).panicked with _ | _
      · rcases hd : (insertCache B s k v true).diverged with _ | _
        · exact Or.inr (Or.inr (hcond hp hd).2.2.2)
        · exact Or.inr (Or.inl hd)
      · exact Or.inl hp
    | get k =>
      have hres : applyOp B s (Op.get k) = (getInner B s k false).2 := by
        show (get B s k).2 = _
        unfold get
        rw [if_neg hdead]
      rw [hres]
      exact getInner_good B s k false hI
    | getMut k =>
      have hres : applyOp B s (Op.getMut k) = (getInner B s k true).2 := by
        show (getMut B s k).2 = _
        unfold getMut
        rw [if_neg hdead]
      rw [hres]
      exact getInner_good B s k true hI

/-- Model fact: a freshly constructed cache is good (its cache vector is
empty, so every heap-shape condition is vacuous). -/
theorem good_withCapacity {I V : Type} [DecidableEq I] (c : Nat) :
    Good (withCapacity c : LRU I V) := by
  refine Or.inr (Or.inr ⟨?_, ?_, ?_, ?_⟩)
  · intro j q hq hqlen
    exact absurd hqlen (by simp [withCapacity])
  · intro j hj
    exact absurd hj (by simp [withCapacity])
  · intro e he
    exact absurd he (by simp [withCapacity])
  · simp [withCapacity, DistinctTimes]

/-- Model fact: goodness is preserved along any run of public operations. -/
theorem good_runOps {I : Type} [DecidableEq I] {V : Type}
    (B : Backend I V) (ops : List (Op I V)) :
    ∀ s : LRU I V, Good s → Good (runOps B s ops) := by
  induction ops with
  | nil =>
    intro s hg
    exact hg
  | cons o t ih =>
    intro s hg
    exact ih (applyOp B s o) (applyOp_good B s o hg)

/-- Model fact: every reachable state is good. -/
theorem reachable_good {I : Type} [DecidableEq I] {V : Type}
    (B : Backend I V) (s : LRU I V) (h : Reachable B s) : Good s := by
  obtain ⟨c, ops, rfl⟩ := h
  exact good_runOps B ops (withCapacity c) (good_withCapacity c)

/-- A `get_inner` call from a heap-shaped state delivers its write-backs
in strictly increasing stamp order, all strictly older than what stays. -/
theorem getInner_evicts {I : Type} [DecidableEq I] {V : Type}
    (B : Backend I V) (s : LRU I V) (k : I) (u : Bool) (hI : Inv s) :
    ∃ es rest,
      s.cache.Perm (es ++ rest) ∧
      writeBacks (getInner B s k u).2.log =
        writeBacks s.log ++ es.map (fun e => (e.index, e.item, e.updated)) ∧
      es.Chain' (fun a b => a.accessed_time < b.accessed_time) ∧
      (∀ e ∈ es, ∀ f ∈ rest, e.accessed_time < f.accessed_time) := by
  cases hhit : getByLeft s.map k with
  | some i =>
    obtain ⟨hlog, hdvg, hcond⟩ := getInner_hit_spec B s k u i hI hhit
    refine ⟨[], s.cache, by simp, ?_, by simp, by simp⟩
    rw [hlog]
    simp
  | none =>
    cases hld : B.load k with
    | some v =>
      rw [getInner_miss_load B s k u hhit v hld]
      have hI2 : Inv ({ s with log := s.log ++ [Event.load k] } : LRU I V) := hI
      obtain ⟨es, rest, h1, h2, h3, h4, h5, h6, hcond⟩ :=
        insertCache_spec B { s with log := s.log ++ [Event.load k] } k v u hI2
      refine ⟨es, rest, h1, ?_, h5, h6⟩
      rw [h4]
      show writeBacks (s.log ++ [Event.load k]) ++ _ = _
      rw [writeBacks_append_load]
    | none =>
      rw [getInner_miss_absent B s k u hhit hld]
      refine ⟨[], s.cache, by simp, ?_, by simp, by simp⟩
      show writeBacks (s.log ++ [Event.load k]) = _
      rw [writeBacks_append_load]
      simp

end LruCache

namespace LruCache

/-- C4: eviction always selects the least-recently-used resident.  In the
model an entry's `accessed_time` is the engine clock at its last touching
operation (insert, get or get_mut), so LRU order is stamp order.  For every
backend, every reachable state and every next public operation — hits on
resident keys included — the `write_back` calls delivered by that operation
are a set `es` of entries removed from the cache, delivered in strictly
increasing stamp order (oldest first), and every delivered entry is
strictly older than every entry that survives the operation. -/
theorem c4_eviction_lru_order {I : Type} [DecidableEq I] {V : Type}
    (B : Backend I V) (s : LRU I V) (hs : Reachable B s) (o : Op I V) :
    ∃ es rest,
      s.cache.Perm (es ++ rest) ∧
      writeBacks (applyOp B s o).log =
        writeBacks s.log ++ es.map (fun e => (e.index, e.item, e.updated)) ∧
      es.Chain' (fun a b => a.accessed_time < b.accessed_time) ∧
      (∀ e ∈ es, ∀ f ∈ rest, e.accessed_time < f.accessed_time) := by
  by_cases hdead : (s.panicked = true ∨ s.diverged = true)
  · have hres : applyOp B s o = s := by
      cases o with
      | ins k v =>
        show insert B s k v = s
        unfold insert
        rw [if_pos hdead]
      | get k =>
        show (get B s k).2 = s
        unfold get
        rw [if_pos hdead]
      | getMut k =>
        show (getMut B s k).2 = s
        unfold getMut
        rw [if_pos hdead]
    rw [hres]
    exact ⟨[], s.cache, by simp, by simp, by simp, by simp⟩
  · have hI : Inv s := by
      rcases reachable_good B s hs with h | h | h
      · exact absurd (Or.inl h) hdead
      · exact absurd (Or.inr h) hdead
      · exact h
    cases o with
    | ins k v =>
      have hres : applyOp B s (Op.ins k v) = insertCache B s k v true := by
        show insert B s k v = _
        unfold insert
        rw [if_neg hdead]
      rw [hres]
      obtain ⟨es, rest, h1, h2, h3, h4, h5, h6, hcond⟩ :=
        insertCache_spec B s k v true hI
      exact ⟨es, rest, h1, h4, h5, h6⟩
    | get k =>
      have hres : applyOp B s (Op.get k) = (getInner B s k false).2 := by
        show (get B s k).2 = _
        unfold get
        rw [if_neg hdead]
      rw [hres]
      exact getInner_evicts B s k false hI
    | getMut k =>
      have hres : applyOp B s (Op.getMut k) = (getInner B s k true).2 := by
        show (getMut B s k).2 = _
        unfold getMut
        rw [if_neg hdead]
      rw [hres]
      exact getInner_evicts B s k true hI

/-- Witness for C4 at a concrete input: the fresh capacity-3 cache is
reachable by the empty run, and the theorem applies to its first insert. -/
theorem c4_eviction_lru_order_witness :
    ∃ es rest,
      (withCapacity 3 : LRU Nat Nat).cache.Perm (es ++ rest) ∧
      writeBacks (applyOp echoBackend (withCapacity 3) (Op.ins 0 0)).log =
        writeBacks (withCapacity 3 : LRU Nat Nat).log ++
          es.map (fun e => (e.index, e.item, e.updated)) ∧
      es.Chain' (fun a b => a.accessed_time < b.accessed_time) ∧
      (∀ e ∈ es, ∀ f ∈ rest, e.accessed_time < f.accessed_time) :=
  c4_eviction_lru_order echoBackend (withCapacity 3) ⟨3, [], rfl⟩ (Op.ins 0 0)

end LruCache

namespace LruCache

/-- C5: every evicted item is delivered to `write_back` exactly once and
with the slot's stored dirty bit (the write-backs of one operation are the
removed entries, with pairwise distinct stamps, so none is delivered
twice); the dirty bit is monotonic while resident (a dirty entry either
stays in the cache dirty with its index and item, is delivered dirty, or
the run dies); `insert` creates the slot dirty, a miss admitted through
`get` creates it clean, a normally returning `get_mut` leaves the touched
slot dirty, and a hit through `get` re-stamps the touched slot with its
dirty bit unchanged. -/
theorem c5_write_back_once_dirty {I : Type} [DecidableEq I] {V : Type}
    (B : Backend I V) (s : LRU I V) (hs : Reachable B s) (o : Op I V) :
    ∃ es rest,
      s.cache.Perm (es ++ rest) ∧
      writeBacks (applyOp B s o).log =
        writeBacks s.log ++ es.map (fun e => (e.index, e.item, e.updated)) ∧
      es.Pairwise (fun a b => a.accessed_time ≠ b.accessed_time) ∧
      (∀ e ∈ s.cache, e.updated = true →
        (applyOp B s o).panicked = true ∨ (applyOp B s o).diverged = true ∨
        (∃ f ∈ (applyOp B s o).cache,
          f.index = e.index ∧ f.item = e.item ∧ f.updated = true) ∨
        (e.index, e.item, true) ∈
          es.map (fun e => (e.index, e.item, e.updated))) ∧
      (∀ k v, o = Op.ins k v →
        (applyOp B s o).panicked = false → (applyOp B s o).diverged = false →
        (applyOp B s o).cache.getLast? =
          some ⟨s.current_time + 1, k, v, true⟩) ∧
      (∀ k, o = Op.getMut k →
        (applyOp B s o).panicked = false → (applyOp B s o).diverged = false →
        (applyOp B s o).current_time = s.current_time + 1 →
        ∃ f, (applyOp B s o).cache.getLast? = some f ∧ f.updated = true ∧
          f.accessed_time = s.current_time + 1) ∧
      (∀ k, o = Op.get k → getByLeft s.map k = none →
        (applyOp B s o).panicked = false → (applyOp B s o).diverged = false →
        (applyOp B s o).current_time = s.current_time + 1 →
        ∃ v, B.load k = some v ∧
          (applyOp B s o).cache.getLast? =
            some ⟨s.current_time + 1, k, v, false⟩) ∧
      (∀ k i, o = Op.get k → getByLeft s.map k = some i →
        (applyOp B s o).panicked = false → (applyOp B s o).diverged = false →
        ∃ e rest2, s.cache.Perm (e :: rest2) ∧
          (applyOp B s o).cache.Perm
            (rest2 ++ [(⟨s.current_time + 1, e.index, e.item, e.updated⟩ :
              CacheItem I V)])) := by
  by_cases hdead : (s.panicked = true ∨ s.diverged = true)
  · have hres : applyOp B s o = s := by
      cases o with
      | ins k v =>
        show insert B s k v = s
        unfold insert
        rw [if_pos hdead]
      | get k =>
        show (get B s k).2 = s
        unfold get
        rw [if_pos hdead]
      | getMut k =>
        show (getMut B s k).2 = s
        unfold getMut
        rw [if_pos hdead]
    rw [hres]
    refine ⟨[], s.cache, by simp, by simp, by simp, ?_, ?_, ?_, ?_, ?_⟩
    · intro e he hupd
      rcases hdead with h | h
      · exact Or.inl h
      · exact Or.inr (Or.inl h)
    · intro k v ho hpk hdvg
      rcases hdead with h | h
      · rw [h] at hpk
        exact Bool.noConfusion hpk
      · rw [h] at hdvg
        exact Bool.noConfusion hdvg
    · intro k ho hpk hdvg hct
      omega
    · intro k ho hmiss hpk hdvg hct
      omega
    · intro k i ho hhit hpk hdvg
      rcases hdead with h | h
      · rw [h] at hpk
        exact Bool.noConfusion hpk
      · rw [h] at hdvg
        exact Bool.noConfusion hdvg
  · have hI : Inv s := by
      rcases reachable_good B s hs with h | h | h
      · exact absurd (Or.inl h) hdead
      · exact absurd (Or.inr h) hdead
      · exact h
    cases o with
    | ins k v =>
      have hres : applyOp B s (Op.ins k v) = insertCache B s k v true := by
        show insert B s k v = _
        unfold insert
        rw [if_neg hdead]
      rw [hres]
      obtain ⟨es, rest, h1, h2, h3, h4, h5, h6, hcond⟩ :=
        insertCache_spec B s k v true hI
      refine ⟨es, rest, h1, h4, chain'_lt_pairwise h5, ?_, ?_, ?_, ?_, ?_⟩
      · intro e he hupd
        rcases List.mem_append.mp (h1.mem_iff.mp he) with hees | herest
        · refine Or.inr (Or.inr (Or.inr ?_))
          refine List.mem_map.mpr ⟨e, hees, ?_⟩
          rw [hupd]
        · rcases hp : (insertCache B s k v true).panicked with _ | _
          · rcases hd : (insertCache B s k v true).diverged with _ | _
            · refine Or.inr (Or.inr (Or.inl ?_))
              refine ⟨e, ?_, rfl, rfl, hupd⟩
              exact ((hcond hp hd).1.mem_iff).mpr (List.mem_append_left _ herest)
            · exact Or.inr (Or.inl rfl)
          · exact Or.inl rfl
      · intro k2 v2 ho hpk hdvg
        injection ho with hk hv
        subst hk
        subst hv
        exact (hcond hpk hdvg).2.1
      · intro k2 ho hpk hdvg hct
        exact Op.noConfusion ho
      · intro k2 ho hmiss hpk hdvg hct
        exact Op.noConfusion ho
      · intro k2 i2 ho hhit hpk hdvg
        exact Op.noConfusion ho
    | get k =>
      have hres : applyOp B s (Op.get k) = (getInner B s k false).2 := by
        show (get B s k).2 = _
        unfold get
        rw [if_neg hdead]
      rw [hres]
      cases hhit : getByLeft s.map k with
      | some i =>
        obtain ⟨hlog, hdvg0, hcond⟩ := getInner_hit_spec B s k false i hI hhit
        refine ⟨[], s.cache, by simp, ?_, by simp, ?_, ?_, ?_, ?_, ?_⟩
        · rw [hlog]
          simp
        · intro e he hupd
          rcases hp : (getInner B s k false).2.panicked with _ | _
          · obtain ⟨e₀, rest2, hP0, hPr, hlast2, hval, hct2, hinv2⟩ := hcond hp
            rcases List.mem_cons.mp (hP0.mem_iff.mp he) with rfl | hin
            · refine Or.inr (Or.inr (Or.inl ?_))
              refine ⟨⟨s.current_time + 1, e.index, e.item, e.updated || false⟩,
                ?_, rfl, rfl, by simp [hupd]⟩
              exact hPr.mem_iff.mpr
                (List.mem_append_right _ (List.mem_singleton_self _))
            · refine Or.inr (Or.inr (Or.inl ?_))
              exact ⟨e, hPr.mem_iff.mpr (List.mem_append_left _ hin),
                rfl, rfl, hupd⟩
          · exact Or.inl rfl
        · intro k2 v2 ho hpk hdvg
          exact Op.noConfusion ho
        · intro k2 ho hpk hdvg hct
          exact Op.noConfusion ho
        · intro k2 ho hmiss hpk hdvg hct
          injection ho with hk
          subst hk
          rw [hhit] at hmiss
          exact Option.noConfusion hmiss
        · intro k2 i2 ho hhit2 hpk hdvg
          obtain ⟨e₀, rest2, hP0, hPr, hlast2, hval, hct2, hinv2⟩ := hcond hpk
          refine ⟨e₀, rest2, hP0, ?_⟩
          have hor : (⟨s.current_time + 1, e₀.index, e₀.item,
              e₀.updated || false⟩ : CacheItem I V) =
              ⟨s.current_time + 1, e₀.index, e₀.item, e₀.updated⟩ := by
            simp
          rw [hor] at hPr
          exact hPr
      | none =>
        cases hld : B.load k with
        | some v =>
          rw [getInner_miss_load B s k false hhit v hld]
          have hI2 : Inv ({ s with log := s.log ++ [Event.load k] } : LRU I V) := hI
          obtain ⟨es, rest, h1, h2, h3, h4, h5, h6, hcond⟩ :=
            insertCache_spec B { s with log := s.log ++ [Event.load k] }
              k v false hI2
          refine ⟨es, rest, h1, ?_, chain'_lt_pairwise h5, ?_, ?_, ?_, ?_, ?_⟩
          · rw [h4]
            show writeBacks (s.log ++ [Event.load k]) ++ _ = _
            rw [writeBacks_append_load]
          · intro e he hupd
            rcases List.mem_append.mp (h1.mem_iff.mp he) with hees | herest
            · refine Or.inr (Or.inr (Or.inr ?_))
              refine List.mem_map.mpr ⟨e, hees, ?_⟩
              rw [hupd]
            · rcases hp : (insertCache B { s with log := s.log ++ [Event.load k] }
                  k v false).panicked with _ | _
              · rcases hd : (insertCache B
                    { s with log := s.log ++ [Event.load k] }
                    k v false).diverged with _ | _
                · refine Or.inr (Or.inr (Or.inl ?_))
                  refine ⟨e, ?_, rfl, rfl, hupd⟩
                  exact ((hcond hp hd).1.mem_iff).mpr
                    (List.mem_append_left _ herest)
                · exact Or.inr (Or.inl rfl)
              · exact Or.inl rfl
          · intro k2 v2 ho hpk hdvg
            exact Op.noConfusion ho
          · intro k2 ho hpk hdvg hct
            exact Op.noConfusion ho
          · intro k2 ho hmiss hpk hdvg hct
            injection ho with hk
            subst hk
            exact ⟨v, hld, (hcond hpk hdvg).2.1⟩
          · intro k2 i2 ho hhit2 hpk hdvg
            injection ho with hk
            subst hk
            rw [hhit] at hhit2
            exact Option.noConfusion hhit2
        | none =>
          rw [getInner_miss_absent B s k false hhit hld]
          refine ⟨[], s.cache, by simp, ?_, by simp, ?_, ?_, ?_, ?_, ?_⟩
          · show writeBacks (s.log ++ [Event.load k]) = _
            rw [writeBacks_append_load]
            simp
          · intro e he hupd
            exact Or.inr (Or.inr (Or.inl ⟨e, he, rfl, rfl, hupd⟩))
          · intro k2 v2 ho hpk hdvg
            exact Op.noConfusion ho
          · intro k2 ho hpk hdvg hct
            exact Op.noConfusion ho
          · intro k2 ho hmiss hpk hdvg hct
            have h9 : s.current_time = s.current_time + 1 := hct
            omega
          · intro k2 i2 ho hhit2 hpk hdvg
            injection ho with hk
            subst hk
            rw [hhit] at hhit2
            exact Option.noConfusion hhit2
    | getMut k =>
      have hres : applyOp B s (Op.getMut k) = (getInner B s k true).2 := by
        show (getMut B s k).2 = _
        unfold getMut
        rw [if_neg hdead]
      rw [hres]
      cases hhit : getByLeft s.map k with
      | some i =>
        obtain ⟨hlog, hdvg0, hcond⟩ := getInner_hit_spec B s k true i hI hhit
        refine ⟨[], s.cache, by simp, ?_, by simp, ?_, ?_, ?_, ?_, ?_⟩
        · rw [hlog]
          simp
        · intro e he hupd
          rcases hp : (getInner B s k true).2.panicked with _ | _
          · obtain ⟨e₀, rest2, hP0, hPr, hlast2, hval, hct2, hinv2⟩ := hcond hp
            rcases List.mem_cons.mp (hP0.mem_iff.mp he) with rfl | hin
            · refine Or.inr (Or.inr (Or.inl ?_))
              refine ⟨⟨s.current_time + 1, e.index, e.item, e.updated || true⟩,
                ?_, rfl, rfl, by simp⟩
              exact hPr.mem_iff.mpr
                (List.mem_append_right _ (List.mem_singleton_self _))
            · refine Or.inr (Or.inr (Or.inl ?_))
              exact ⟨e, hPr.mem_iff.mpr (List.mem_append_left _ hin),
                rfl, rfl, hupd⟩
          · exact Or.inl rfl
        · intro k2 v2 ho hpk hdvg
          exact Op.noConfusion ho
        · intro k2 ho hpk hdvg hct
          obtain ⟨e₀, rest2, hP0, hPr, hlast2, hval, hct2, hinv2⟩ := hcond hpk
          exact ⟨⟨s.current_time + 1, e₀.index, e₀.item, e₀.updated || true⟩,
            hlast2, by simp, rfl⟩
        · intro k2 ho hmiss hpk hdvg hct
          exact Op.noConfusion ho
        · intro k2 i2 ho hhit2 hpk hdvg
          exact Op.noConfusion ho
      | none =>
        cases hld : B.load k with
        | some v =>
          rw [getInner_miss_load B s k true hhit v hld]
          have hI2 : Inv ({ s with log := s.log ++ [Event.load k] } : LRU I V) := hI
          obtain ⟨es, rest, h1, h2, h3, h4, h5, h6, hcond⟩ :=
            insertCache_spec B { s with log := s.log ++ [Event.load k] }
              k v true hI2
          refine ⟨es, rest, h1, ?_, chain'_lt_pairwise h5, ?_, ?_, ?_, ?_, ?_⟩
          · rw [h4]
            show writeBacks (s.log ++ [Event.load k]) ++ _ = _
            rw [writeBacks_append_load]
          · intro e he hupd
            rcases List.mem_append.mp (h1.mem_iff.mp he) with hees | herest
            · refine Or.inr (Or.inr (Or.inr ?_))
              refine List.mem_map.mpr ⟨e, hees, ?_⟩
              rw [hupd]
            · rcases hp : (insertCache B { s with log := s.log ++ [Event.load k] }
                  k v true).panicked with _ | _
              · rcases hd : (insertCache B
                    { s with log := s.log ++ [Event.load k] }
                    k v true).diverged with _ | _
                · refine Or.inr (Or.inr (Or.inl ?_))
                  refine ⟨e, ?_, rfl, rfl, hupd⟩
                  exact ((hcond hp hd).1.mem_iff).mpr
                    (List.mem_append_left _ herest)
                · exact Or.inr (Or.inl rfl)
              · exact Or.inl rfl
          · intro k2 v2 ho hpk hdvg
            exact Op.noConfusion ho
          · intro k2 ho hpk hdvg hct
            exact ⟨⟨s.current_time + 1, k, v, true⟩,
              (hcond hpk hdvg).2.1, rfl, rfl⟩
          · intro k2 ho hmiss hpk hdvg hct
            exact Op.noConfusion ho
          · intro k2 i2 ho hhit2 hpk hdvg
            exact Op.noConfusion ho
        | none =>
          rw [getInner_miss_absent B s k true hhit hld]
          refine ⟨[], s.cache, by simp, ?_, by simp, ?_, ?_, ?_, ?_, ?_⟩
          · show writeBacks (s.log ++ [Event.load k]) = _
            rw [writeBacks_append_load]
            simp
          · intro e he hupd
            exact Or.inr (Or.inr (Or.inl ⟨e, he, rfl, rfl, hupd⟩))
          · intro k2 v2 ho hpk hdvg
            exact Op.noConfusion ho
          · intro k2 ho hpk hdvg hct
            have h9 : s.current_time = s.current_time + 1 := hct
            omega
          · intro k2 ho hmiss hpk hdvg hct
            exact Op.noConfusion ho
          · intro k2 i2 ho hhit2 hpk hdvg
            exact Op.noConfusion ho

end LruCache

namespace LruCache

/-- Witness for C5 at a concrete input: the fresh capacity-3 cache is
reachable by the empty run, and the theorem applies to its first insert. -/
theorem c5_write_back_once_dirty_witness :
    ∃ es rest,
      (withCapacity 3 : LRU Nat Nat).cache.Perm (es ++ rest) ∧
      writeBacks (applyOp echoBackend (withCapacity 3) (Op.ins 0 0)).log =
        writeBacks (withCapacity 3 : LRU Nat Nat).log ++
          es.map (fun e => (e.index, e.item, e.updated)) ∧
      es.Pairwise (fun a b => a.accessed_time ≠ b.accessed_time) ∧
      (∀ e ∈ (withCapacity 3 : LRU Nat Nat).cache, e.updated = true →
        (applyOp echoBackend (withCapacity 3) (Op.ins 0 0)).panicked = true ∨
        (applyOp echoBackend (withCapacity 3) (Op.ins 0 0)).diverged = true ∨
        (∃ f ∈ (applyOp echoBackend (withCapacity 3) (Op.ins 0 0)).cache,
          f.index = e.index ∧ f.item = e.item ∧ f.updated = true) ∨
        (e.index, e.item, true) ∈
          es.map (fun e => (e.index, e.item, e.updated))) ∧
      (∀ k v, (Op.ins 0 0 : Op Nat Nat) = Op.ins k v →
        (applyOp echoBackend (withCapacity 3) (Op.ins 0 0)).panicked = false →
        (applyOp echoBackend (withCapacity 3) (Op.ins 0 0)).diverged = false →
        (applyOp echoBackend (withCapacity 3) (Op.ins 0 0)).cache.getLast? =
          some ⟨(withCapacity 3 : LRU Nat Nat).current_time + 1, k, v, true⟩) ∧
      (∀ k, (Op.ins 0 0 : Op Nat Nat) = Op.getMut k →
        (applyOp echoBackend (withCapacity 3) (Op.ins 0 0)).panicked = false →
        (applyOp echoBackend (withCapacity 3) (Op.ins 0 0)).diverged = false →
        (applyOp echoBackend (withCapacity 3) (Op.ins 0 0)).current_time =
          (withCapacity 3 : LRU Nat Nat).current_time + 1 →
        ∃ f, (applyOp echoBackend (withCapacity 3) (Op.ins 0 0)).cache.getLast? =
            some f ∧ f.updated = true ∧
          f.accessed_time = (withCapacity 3 : LRU Nat Nat).current_time + 1) ∧
      (∀ k, (Op.ins 0 0 : Op Nat Nat) = Op.get k →
        getByLeft (withCapacity 3 : LRU Nat Nat).map k = none →
        (applyOp echoBackend (withCapacity 3) (Op.ins 0 0)).panicked = false →
        (applyOp echoBackend (withCapacity 3) (Op.ins 0 0)).diverged = false →
        (applyOp echoBackend (withCapacity 3) (Op.ins 0 0)).current_time =
          (withCapacity 3 : LRU Nat Nat).current_time + 1 →
        ∃ v, echoBackend.load k = some v ∧
          (applyOp echoBackend (withCapacity 3) (Op.ins 0 0)).cache.getLast? =
            some ⟨(withCapacity 3 : LRU Nat Nat).current_time + 1, k, v, false⟩) ∧
      (∀ k i, (Op.ins 0 0 : Op Nat Nat) = Op.get k →
        getByLeft (withCapacity 3 : LRU Nat Nat).map k = some i →
        (applyOp echoBackend (withCapacity 3) (Op.ins 0 0)).panicked = false →
        (applyOp echoBackend (withCapacity 3) (Op.ins 0 0)).diverged = false →
        ∃ e rest2, (withCapacity 3 : LRU Nat Nat).cache.Perm (e :: rest2) ∧
          (applyOp echoBackend (withCapacity 3) (Op.ins 0 0)).cache.Perm
            (rest2 ++
              [(⟨(withCapacity 3 : LRU Nat Nat).current_time + 1, e.index,
                e.item, e.updated⟩ : CacheItem Nat Nat)])) :=
  c5_write_back_once_dirty echoBackend (withCapacity 3) ⟨3, [], rfl⟩
    (Op.ins 0 0)

end LruCache
